import Mathlib

/-!
Verification development for the heap-storage / B+-tree / extendible-hash
storage core (Python sources: heap_storage.py, fixed_heap_storage.py,
btree_index.py, hash_index.py, storage_engine.py).

The Python code is shallowly embedded: a block (`bytearray`) becomes a byte
store `Mem := Nat → Nat` plus the cached object attributes the Python classes
keep (`num_records`, `end_free`, ...); fallible code returns `Except PyErr`;
Python `while` loops become fuel-bounded recursion.  Machine integers are
`Nat`/`Int` with explicit two-byte / four-byte big-endian codecs, exactly as
`_get_n`/`_put_n`/`to_bytes` do.
-/

/-- Errors raised by the embedded Python code.  `noRoom` is
`ValueError('Not enough room in block')`; `indexError`, `attributeError`,
`typeError`, `keyError` are the corresponding Python exception classes;
`noSuchFile` is bsddb3's `DBNoSuchFileError`; `valueError` covers the other
`ValueError` raises; `fuelEmpty` marks exhaustion of the fuel that bounds a
Python `while` loop (never returned on the executions the theorems discuss). -/
inductive PyErr where
  | noRoom
  | indexError
  | attributeError
  | typeError
  | keyError
  | noSuchFile
  | valueError
  | fuelEmpty
deriving DecidableEq

/-- A block's byte contents (Python `bytearray`), as a total byte store.
Reads beyond `block_size` are handled by the slice-clipping in `getN` and
`readSlice` below, mirroring Python slice semantics. -/
def Mem : Type := Nat → Nat

/-- Write a single byte. -/
def write1 (m : Mem) (i v : Nat) : Mem := fun j => if j = i then v else m j

/-- `_put_n`: store a 2-byte big-endian integer at offset `i`
(`block[i:i+2] = int.to_bytes(n, 2, 'big')`). -/
def writeN2 (m : Mem) (i n : Nat) : Mem :=
  write1 (write1 m i (n / 256 % 256)) (i + 1) (n % 256)

/-- Overwrite the bytes starting at `i` with the list `d`
(length-preserving slice assignment `block[i:i+len(d)] = d`). -/
def writeBytes (m : Mem) (i : Nat) (d : List Nat) : Mem :=
  match d with
  | [] => m
  | b :: rest => writeBytes (write1 m i b) (i + 1) rest

/-- Python `block[loc:loc+size]` on a block of length `bs`:
the slice is clipped to the block, so its length is `min size (bs - loc)`. -/
def readSlice (m : Mem) (loc size bs : Nat) : List Nat :=
  (List.range (min size (bs - loc))).map (fun j => m (loc + j))

/-- `SlottedPage` state: the byte store together with the cached Python
attributes `block_size`, `num_records` and `end_free` (the attributes are
mirrored into bytes 0..3 by `_put_header()`). -/
structure SlottedPage where
  block_size : Nat
  mem : Mem
  num_records : Nat
  end_free : Nat

/-- `_get_n(i)`: `int.from_bytes(block[i:i+2], 'big')`, with Python slice
clipping: past the end of the block the slice is short or empty. -/
def getN (p : SlottedPage) (i : Nat) : Nat :=
  if i + 1 < p.block_size then p.mem i * 256 + p.mem (i + 1)
  else if i < p.block_size then p.mem i
  else 0

/-- `_get_header(record_id)`: `(size, loc)` as stored in the block bytes. -/
def getHeader (p : SlottedPage) (r : Nat) : Nat × Nat :=
  (getN p (4 * r), getN p (4 * r + 2))

/-- `_put_header(record_id, size, loc)` (explicit-argument form). -/
def putHeaderR (p : SlottedPage) (r size loc : Nat) : SlottedPage :=
  { p with mem := writeN2 (writeN2 p.mem (4 * r) size) (4 * r + 2) loc }

/-- `_put_header()` with no arguments: mirror `num_records`/`end_free`
into the block header (record 0's slot). -/
def putHeader0 (p : SlottedPage) : SlottedPage :=
  putHeaderR p 0 p.num_records p.end_free

/-- `SlottedPage(block_size=bs)`: fresh zeroed block, `num_records = 0`,
`end_free = bs - 1`, header mirrored. -/
def emptySlottedPage (bs : Nat) : SlottedPage :=
  putHeader0 { block_size := bs, mem := fun _ => 0, num_records := 0, end_free := bs - 1 }

/-- `_has_room(size)`: `size <= end_free - (num_records + 2) * 4`
(Python integers, so the subtraction is over `Int`). -/
def hasRoom (p : SlottedPage) (size : Nat) : Bool :=
  (size : Int) ≤ (p.end_free : Int) - (p.num_records + 2) * 4

/-- `ids()`: record ids `1..num_records` whose stored `loc` is nonzero. -/
def slottedIds (p : SlottedPage) : List Nat :=
  ((List.range p.num_records).map (· + 1)).filter (fun r => (getHeader p r).2 ≠ 0)

/-- `get(record_id)`: `None` when `loc = 0`, else the byte slice
`block[loc:loc+size]`. -/
def slottedGet (p : SlottedPage) (r : Nat) : Option (List Nat) :=
  let hdr := getHeader p r
  if hdr.2 = 0 then none else some (readSlice p.mem hdr.2 hdr.1 p.block_size)

/-- `add(data)`: room check with `len(data)+4`, then bump `num_records`,
reserve `len(data)` bytes at the top of the free region, write both headers
and the payload, and return the new record id. -/
def slottedAdd (p : SlottedPage) (d : List Nat) : Except PyErr (SlottedPage × Nat) :=
  if ¬ hasRoom p (d.length + 4) then .error .noRoom
  else
    let n := p.num_records + 1
    let size := d.length
    let ef := p.end_free - size
    let loc := ef + 1
    let p1 := putHeader0 { p with num_records := n, end_free := ef }
    let p2 := putHeaderR p1 n size loc
    .ok ({ p2 with mem := writeBytes p2.mem loc d }, n)

/-- One iteration of `_slide`'s header-fixup loop, for record id `r`:
if the record is live (`loc != 0`) and `loc <= start`, shift its stored
location by `shift`.  (`shift` is an `Int` exactly as in Python; the
`Int.toNat` is harmless on the well-formed states the theorems discuss,
where the shifted location stays positive.) -/
def slideFixOne (start : Nat) (shift : Int) (q : SlottedPage) (r : Nat) : SlottedPage :=
  let hdr := getHeader q r
  if hdr.2 ≠ 0 ∧ hdr.2 ≤ start then
    putHeaderR q r hdr.1 (((hdr.2 : Int) + shift)).toNat
  else q

/-- The `for record_id in self.ids()` fixup loop of `_slide`, processing
record ids `1..k` in ascending order (the Python generator reads each header
lazily, but each iteration only writes the header of the id it is visiting,
so the eager ascending fold is the same function). -/
def slideFixUpTo (start : Nat) (shift : Int) (p : SlottedPage) : Nat → SlottedPage
  | 0 => p
  | k + 1 => slideFixOne start shift (slideFixUpTo start shift p k) (k + 1)

/-- The effect of `_slide`'s fixup loop on one stored header: a live header
with `loc <= start` has its location shifted, any other header is kept. -/
def fixedHdr (start : Nat) (shift : Int) (hdr : Nat × Nat) : Nat × Nat :=
  if hdr.2 ≠ 0 ∧ hdr.2 ≤ start then (hdr.1, ((hdr.2 : Int) + shift).toNat) else hdr

/-- `_slide(start, end)`: move `block[end_free+1 : start]` to
`block[end_free+1+shift : end]` (`shift = end - start`), fix up the headers
of slid records, bump `end_free` by `shift` and re-mirror the block header.
Both of Python's slice-assignment directions are captured by the single
pointwise description of the copied region. -/
def slideMem (p : SlottedPage) (start endo : Nat) : Mem :=
  fun j =>
    if (p.end_free + 1 : Int) + ((endo : Int) - (start : Int)) ≤ (j : Int) ∧
        (j : Int) < (endo : Int)
    then p.mem ((j : Int) - ((endo : Int) - (start : Int))).toNat
    else p.mem j

def slottedSlide (p : SlottedPage) (start endo : Nat) : SlottedPage :=
  if endo = start then p
  else
    let shift : Int := (endo : Int) - (start : Int)
    let p1 : SlottedPage := { p with mem := slideMem p start endo }
    let p2 := slideFixUpTo start shift p1 p.num_records
    let p3 : SlottedPage := { p2 with end_free := ((p.end_free : Int) + shift).toNat }
    putHeader0 p3

/-- `delete(record_id)`: tombstone the header (size 0, loc 0) and slide the
bytes `[end_free+1 .. loc)` right over the freed region. -/
def slottedDelete (p : SlottedPage) (r : Nat) : SlottedPage :=
  let hdr := getHeader p r
  let p1 := putHeaderR p r 0 0
  slottedSlide p1 hdr.2 (hdr.2 + hdr.1)

/-- `put(record_id, data)`: grow (slide left to make room, then overwrite)
or shrink/replace in place (overwrite, then slide right over the slack);
finally re-read the possibly-slid header and store the new size. -/
def slottedPut (p : SlottedPage) (r : Nat) (d : List Nat) : Except PyErr SlottedPage :=
  let hdr := getHeader p r
  let size := hdr.1
  let loc := hdr.2
  let new_size := d.length
  if size < new_size then
    let extra := new_size - size
    if ¬ hasRoom p extra then .error .noRoom
    else
      let p1 := slottedSlide p loc (loc - extra)
      let p2 : SlottedPage := { p1 with mem := writeBytes p1.mem (loc - extra) d }
      let hdr2 := getHeader p2 r
      .ok (putHeaderR p2 r new_size hdr2.2)
  else
    let p1 : SlottedPage := { p with mem := writeBytes p.mem loc d }
    let p2 := slottedSlide p1 (loc + new_size) (loc + size)
    let hdr2 := getHeader p2 r
    .ok (putHeaderR p2 r new_size hdr2.2)

/-- `clear()`: reset to an empty page. -/
def slottedClear (p : SlottedPage) : SlottedPage :=
  putHeader0 { p with num_records := 0, end_free := p.block_size - 1 }

/-- Record slots `r` and `r'` hold pairwise-disjoint byte regions (trivially
true when either is the block header, a tombstone, or they coincide). -/
def disjointSlots (p : SlottedPage) (r r' : Nat) : Prop :=
  r = 0 ∨ r' = 0 ∨ r = r' ∨ (getHeader p r).2 = 0 ∨ (getHeader p r').2 = 0 ∨
  (getHeader p r).2 + (getHeader p r).1 ≤ (getHeader p r').2 ∨
  (getHeader p r').2 + (getHeader p r').1 ≤ (getHeader p r).2

instance (p : SlottedPage) (r r' : Nat) : Decidable (disjointSlots p r r') := by
  unfold disjointSlots; infer_instance

/-- Structural well-formedness of a slotted page, as maintained by the code
and stated in the spec's data-model invariants: the header mirror is
consistent, the header directory and the packed records do not overlap, every
live record's bytes lie inside `[end_free+1, block_size)`, and live records
are pairwise disjoint. -/
def SPWF (p : SlottedPage) : Prop :=
  p.block_size ≤ 65535 ∧
  p.end_free < p.block_size ∧
  4 * (p.num_records + 1) ≤ p.end_free + 1 ∧
  getHeader p 0 = (p.num_records, p.end_free) ∧
  (∀ r, r < p.num_records + 1 → 1 ≤ r →
     ((getHeader p r).2 = 0 ∧ (getHeader p r).1 = 0) ∨
     (p.end_free + 1 ≤ (getHeader p r).2 ∧
      (getHeader p r).2 + (getHeader p r).1 ≤ p.block_size)) ∧
  (∀ r, r < p.num_records + 1 → ∀ r', r' < p.num_records + 1 → disjointSlots p r r')

instance (p : SlottedPage) : Decidable (SPWF p) := by
  unfold SPWF; infer_instance

/-- `_get_n` on a raw byte store of length `bs` (same slice clipping). -/
def memGetN (m : Mem) (bs i : Nat) : Nat :=
  if i + 1 < bs then m i * 256 + m (i + 1)
  else if i < bs then m i
  else 0

/-- `FixedLengthRecordBlock` state: byte store plus the cached
`data_length` and `free_list` attributes (the free list is a Python `set`;
only membership, removal and insertion are used, so a list represents it). -/
structure FixedPage where
  data_length : Nat
  block_size : Nat
  mem : Mem
  free_list : List Nat

/-- `max_records = (block_size - 2) // data_length`. -/
def fixedMaxRecords (p : FixedPage) : Nat := (p.block_size - 2) / p.data_length

/-- `_offset(record_id) = record_id * data_length + 2`. -/
def fixedOffset (p : FixedPage) (r : Nat) : Nat := r * p.data_length + 2

/-- `FixedLengthRecordBlock(data_length, block_size)` with `block=None`:
zeroed store, free-list head 0, each slot's first two bytes hold the next
free slot id (slot `max_records - 1` holds the sentinel `max_records`). -/
def fixedNew (dl bs : Nat) : FixedPage :=
  let maxR := (bs - 2) / dl
  let m0 : Mem := writeN2 (fun _ => 0) 0 0
  let m1 := (List.range maxR).foldl (fun m rid => writeN2 m (rid * dl + 2) (rid + 1)) m0
  { data_length := dl, block_size := bs, mem := m1, free_list := List.range maxR }

/-- The constructor's free-list walk (`while nextp != max_records`), bounded
by fuel; on the acyclic chains written by the code the fuel never runs out. -/
def freeWalk (m : Mem) (dl bs maxR : Nat) : Nat → Nat → List Nat
  | 0, _ => []
  | fuel + 1, nextp =>
    if nextp = maxR then []
    else
      let np := memGetN m bs (nextp * dl + 2)
      np :: freeWalk m dl bs maxR fuel np

/-- `FixedLengthRecordBlock(data_length, block=bytes)`: re-derive the free
list from the stored chain (the head, then every next pointer up to and
including the sentinel). -/
def parseFixedPage (dl bs : Nat) (m : Mem) : FixedPage :=
  let maxR := (bs - 2) / dl
  let head := memGetN m bs 0
  { data_length := dl, block_size := bs, mem := m,
    free_list := head :: freeWalk m dl bs maxR (maxR + 1) head }

/-- `add(data)`: pop the free-list head; `NoRoom` when the head is past
`max_records`.  (Callers always pass exactly `data_length` bytes.) -/
def fixedAdd (p : FixedPage) (d : List Nat) : Except PyErr (FixedPage × Nat) :=
  let rid := memGetN p.mem p.block_size 0
  if fixedMaxRecords p ≤ rid then .error .noRoom
  else
    let ofs := fixedOffset p rid
    let nextp := memGetN p.mem p.block_size ofs
    let m1 := writeBytes p.mem ofs d
    let m2 := writeN2 m1 0 nextp
    .ok ({ p with mem := m2, free_list := p.free_list.erase rid }, rid)

/-- `get(record_id)`: `None` when the id is on the free list, else the
`data_length`-byte slice at its slot. -/
def fixedGet (p : FixedPage) (r : Nat) : Option (List Nat) :=
  if p.free_list.contains r then none
  else some (readSlice p.mem (fixedOffset p r) p.data_length p.block_size)

/-- `delete(record_id)`: push the slot onto the free list (no-op when it is
already free). -/
def fixedDelete (p : FixedPage) (r : Nat) : FixedPage :=
  if p.free_list.contains r then p
  else
    let nextp := memGetN p.mem p.block_size 0
    let m1 := writeN2 p.mem (fixedOffset p r) nextp
    let m2 := writeN2 m1 0 r
    { p with mem := m2, free_list := r :: p.free_list }

/-- `put(record_id, data)`: overwrite the slot in place. -/
def fixedPut (p : FixedPage) (r : Nat) (d : List Nat) : FixedPage :=
  { p with mem := writeBytes p.mem (fixedOffset p r) d }

/-- `ids()`: slots not on the free list, ascending. -/
def fixedIds (p : FixedPage) : List Nat :=
  (List.range (fixedMaxRecords p)).filter (fun r => ¬ p.free_list.contains r)

/-- Insert-or-replace in an association list (Python `dict` assignment). -/
def assocSet {α : Type} (l : List (Nat × α)) (k : Nat) (v : α) : List (Nat × α) :=
  if (l.lookup k).isSome then l.map (fun e => if e.1 = k then (k, v) else e)
  else l ++ [(k, v)]

/-- Re-parse a stored block as a `SlottedPage`
(`SlottedPage(block_size, block=bytes)` reads `num_records`/`end_free`
from bytes 0..3). -/
def parseSlottedPage (bs : Nat) (m : Mem) : SlottedPage :=
  { block_size := bs, mem := m,
    num_records := memGetN m bs 0, end_free := memGetN m bs 2 }

/-- `HeapFile` state: the Berkeley DB RecNo contents (`disk`), the coalesced
write queue, the reference-counted `write_lock`, and `last`. -/
structure HeapFileSt where
  block_size : Nat
  disk : List (Nat × Mem)
  write_queue : List (Nat × SlottedPage)
  write_lock : Int
  last : Nat

/-- `HeapFile.get(block_id)`: the dirty copy when the block is in the write
queue, else the block parsed from disk (a missing disk record yields a fresh
empty page, as `SlottedPage(bs, block=None)` does). -/
def heapFileGet (f : HeapFileSt) (bid : Nat) : SlottedPage :=
  match f.write_queue.lookup bid with
  | some b => b
  | none =>
    match f.disk.lookup bid with
    | some m => parseSlottedPage f.block_size m
    | none => emptySlottedPage f.block_size

/-- `begin_write()`. -/
def heapFileBeginWrite (f : HeapFileSt) : HeapFileSt :=
  { f with write_lock := f.write_lock + 1 }

/-- `end_write()`: when the lock returns to zero, flush every queued block's
bytes to disk and clear the queue. -/
def heapFileEndWrite (f : HeapFileSt) : HeapFileSt :=
  let lock := f.write_lock - 1
  if lock = 0 then
    { f with
      write_lock := 0,
      disk := f.write_queue.foldl (fun dk e => assocSet dk e.1 e.2.mem) f.disk,
      write_queue := [] }
  else { f with write_lock := lock }

/-- `HeapFile.put(block)` for the block with id `bid`. -/
def heapFilePut (f : HeapFileSt) (bid : Nat) (b : SlottedPage) : HeapFileSt :=
  let f1 := heapFileBeginWrite f
  heapFileEndWrite { f1 with write_queue := assocSet f1.write_queue bid b }

/-- `FixedHeapFile` state (same file machinery, `FixedLengthRecordBlock`
pages, plus `record_size`). -/
structure FixedHeapFileSt where
  record_size : Nat
  block_size : Nat
  disk : List (Nat × Mem)
  write_queue : List (Nat × FixedPage)
  write_lock : Int
  last : Nat

/-- `FixedHeapFile.get(block_id)`: parses the block straight from disk.
Unlike `HeapFile.get`, the override does NOT consult `write_queue`. -/
def fixedHeapFileGet (f : FixedHeapFileSt) (bid : Nat) : FixedPage :=
  match f.disk.lookup bid with
  | some m => parseFixedPage f.record_size f.block_size m
  | none => fixedNew f.record_size f.block_size

/-- `put` on a `FixedHeapFile` (inherited from `HeapFile`). -/
def fixedHeapFilePut (f : FixedHeapFileSt) (bid : Nat) (b : FixedPage) : FixedHeapFileSt :=
  let f1 : FixedHeapFileSt := { f with write_lock := f.write_lock + 1 }
  let f2 : FixedHeapFileSt := { f1 with write_queue := assocSet f1.write_queue bid b }
  let lock := f2.write_lock - 1
  if lock = 0 then
    { f2 with
      write_lock := 0,
      disk := f2.write_queue.foldl (fun dk e => assocSet dk e.1 e.2.mem) f2.disk,
      write_queue := [] }
  else { f2 with write_lock := lock }

/-- `int.to_bytes(n, 2, 'big')` for `n < 2^16`. -/
def natToBytes2 (n : Nat) : List Nat := [n / 256 % 256, n % 256]

/-- `int.from_bytes(bytes, 'big')`. -/
def bytesToNatBE (l : List Nat) : Nat := l.foldl (fun a b => a * 256 + b) 0

/-- `int.to_bytes(i, 4, 'big', signed=True)`: the two's-complement residue of
`i` modulo `2^32`, in four big-endian bytes. -/
def intToBytes4 (i : Int) : List Nat :=
  let n := (i % (4294967296 : Int)).toNat
  [n / 16777216 % 256, n / 65536 % 256, n / 256 % 256, n % 256]

/-- `int.from_bytes(bytes, 'big', signed=True)` for a 4-byte value. -/
def natToInt4 (n : Nat) : Int :=
  if n < 2147483648 then (n : Int) else (n : Int) - 4294967296

/-- The column data types supported by the storage engine. -/
inductive ColType where
  | INT
  | BOOLEAN
  | TEXT
deriving DecidableEq

/-- A row value.  A Python `str` is represented by its UTF-8 byte encoding
(a list of bytes), so `str.encode()` / `bytes.decode()` become the identity;
the 2-byte length prefix counts exactly these bytes, as in `_marshal`. -/
inductive Value where
  | int (i : Int)
  | bool (b : Bool)
  | text (bs : List Nat)
deriving DecidableEq

/-- A schema: the `column_names` order paired with each column's
`data_type` attribute. -/
abbrev Schema := List (String × ColType)

/-- A row: a Python dict `column_name -> value` (association list). -/
abbrev Row := List (String × Value)

/-- `row[column_name]` lookup. -/
def rowGet (row : Row) (name : String) : Option Value := row.lookup name

/-- Serialisation of one typed value (`HeapTable._marshal` body for one
column): INT = 4 signed BE bytes, BOOLEAN = 1 byte, TEXT = 2-byte BE length
plus the encoded bytes.  A type mismatch would raise in Python; the theorems
only apply it to rows typed to the schema. -/
def encodeVal : ColType → Value → List Nat
  | .INT, .int i => intToBytes4 i
  | .BOOLEAN, .bool b => [if b then 1 else 0]
  | .TEXT, .text bs => natToBytes2 bs.length ++ bs
  | _, _ => []

/-- `HeapTable._marshal(row)`: concatenate the encodings in `column_names`
order. -/
def marshalRow (schema : Schema) (row : Row) : List Nat :=
  match schema with
  | [] => []
  | (name, t) :: rest =>
    encodeVal t ((rowGet row name).getD (.int 0)) ++ marshalRow rest row

/-- `HeapTable._unmarshal(data)`: walk the schema, consuming the same
slices `_marshal` produced. -/
def unmarshalRow (schema : Schema) (data : List Nat) : Row :=
  match schema with
  | [] => []
  | (name, .INT) :: rest =>
    (name, .int (natToInt4 (bytesToNatBE (data.take 4)))) :: unmarshalRow rest (data.drop 4)
  | (name, .BOOLEAN) :: rest =>
    (name, .bool (bytesToNatBE (data.take 1) ≠ 0)) :: unmarshalRow rest (data.drop 1)
  | (name, .TEXT) :: rest =>
    let size := bytesToNatBE (data.take 2)
    (name, .text ((data.drop 2).take size)) :: unmarshalRow rest ((data.drop 2).drop size)

/-- `row` is typed to `schema`: same column names in the same order, each
value of the column's type, INT values in 4-byte signed range, TEXT encodings
shorter than `2^16` bytes with byte values below 256. -/
def typedRow : Schema → Row → Bool
  | [], [] => true
  | (name, .INT) :: srest, (name', .int i) :: rrest =>
    name == name' && decide (-2147483648 ≤ i) && decide (i < 2147483648) &&
      typedRow srest rrest
  | (name, .BOOLEAN) :: srest, (name', .bool _) :: rrest =>
    name == name' && typedRow srest rrest
  | (name, .TEXT) :: srest, (name', .text bs) :: rrest =>
    name == name' && decide (bs.length < 65536) && bs.all (fun b => decide (b < 256)) &&
      typedRow srest rrest
  | _, _ => false

/-- Overlay `new_values` onto a full row
(`for key in new_values: row[key] = new_values[key]`). -/
def overlayRow (row : Row) (newvals : Row) : Row :=
  row.map (fun e => match newvals.lookup e.1 with
    | some v => (e.1, v)
    | none => e)

/-- `HeapTable.update(handle, new_values)` restricted to the one block the
handle names: project the stored record, overlay the new values, re-marshal
and `put` in place.  The `put` is NOT wrapped in any exception handler, so a
page-full `ValueError` propagates to the caller.  (`_validate` only checks
column presence, which the projected full row always satisfies.) -/
def heapTableUpdate (schema : Schema) (block : SlottedPage) (rid : Nat) (newvals : Row) :
    Except PyErr SlottedPage :=
  match slottedGet block rid with
  | none => .error .typeError
  | some data =>
    let row := unmarshalRow schema data
    let full := overlayRow row newvals
    slottedPut block rid (marshalRow schema full)

/-- `HeapTable._append(row)` data path: try `add` on the last block; on
`ValueError` allocate a fresh page and `add` there (this second `add` is not
guarded, so its failure would propagate).  Returns the block that was
written and the new record id. -/
def heapTableAppend (lastBlock : SlottedPage) (bs : Nat) (d : List Nat) :
    Except PyErr (SlottedPage × Nat) :=
  match slottedAdd lastBlock d with
  | .ok res => .ok res
  | .error _ => slottedAdd (emptySlottedPage bs) d

/-- A handle into a heap relation: `(block_id, record_id)`. -/
abbrev Handle := Nat × Nat

/-!
B+-tree model (`btree_index.py`), for a single-column INT key profile, so a
key tuple is one `Int` ordered exactly as Python orders 1-tuples of ints.
Nodes are modelled at the level of the in-memory attributes the Python
classes maintain (`keys` dict / `first`-`boundaries`-`pointers`, here zipped
into `entries`); the block-level (de)serialisation done by `save()` and the
constructors is byte-for-byte invertible for these fixed-size records, and
the only observable consequence of the `SlottedPage` byte accounting is the
point at which `block.add` raises `NoRoom`, abstracted by the leaf / interior
entry capacities `lcap` / `icap` (for a fixed-size key and value every entry
costs the same number of bytes, so "no room" is exactly "too many entries").
-/

/-- `_BTreeLeafBase` attributes: the `keys` dict (insertion-ordered
association list, as a Python dict) and `next_leaf`. -/
structure BTLeaf where
  keys : List (Int × Handle)
  next_leaf : Nat
deriving DecidableEq

/-- `_BTreeInterior` attributes; `entries` zips the parallel lists
`boundaries` and `pointers`. -/
structure BTInterior where
  first : Nat
  entries : List (Int × Nat)
deriving DecidableEq

/-- A node of the index file. -/
inductive BTNode where
  | leaf (l : BTLeaf)
  | interior (nd : BTInterior)
deriving DecidableEq

/-- B+-tree state: the index file's blocks, plus the `_BTreeStat` contents
(`root_id`, `height`) and the file's `last` allocated block id. -/
structure BTState where
  file : Nat → Option BTNode
  root_id : Nat
  height : Nat
  nextBlock : Nat

/-- `create()`: block 1 is the stat block, block 2 the empty root leaf,
height 1. -/
def btCreateState : BTState :=
  { file := fun b => if b = 2 then some (.leaf { keys := [], next_leaf := 0 }) else none,
    root_id := 2, height := 1, nextBlock := 2 }

/-- `_BTreeLeafBase.insert(tkey, value)`: duplicate keys raise `IndexError`;
the size check (`block.add` of value and key) raises `NoRoom` once the leaf
holds `lcap` entries; otherwise the pair is appended to the dict. -/
def leafInsert (lcap : Nat) (L : BTLeaf) (k : Int) (v : Handle) : Except PyErr BTLeaf :=
  if (L.keys.lookup k).isSome then .error .indexError
  else if lcap ≤ L.keys.length then .error .noRoom
  else .ok { L with keys := L.keys ++ [(k, v)] }

/-- The boundary scan of `_BTreeInterior.find`: walk the `(boundary,
pointer)` pairs with `prev` tracking `first` / `pointers[i-1]`; the first
boundary greater than the key selects `prev`, and if none is greater the
last pointer wins. -/
def findDown (key : Int) : Nat → List (Int × Nat) → Nat
  | prev, [] => prev
  | prev, (b, ptr) :: rest => if key < b then prev else findDown key ptr rest

/-- `_BTreeInterior.find(key, ...)`: `None` descends to `first`. -/
def interiorFind (nd : BTInterior) (key : Option Int) : Nat :=
  match key with
  | none => nd.first
  | some k => findDown k nd.first nd.entries

/-- The sorted-insert loop of `_BTreeInterior.insert`: equal boundary raises
`IndexError`, a larger existing boundary receives the new pair before it,
otherwise the pair goes at the end. -/
def interiorInsertE (b : Int) (bid : Nat) : List (Int × Nat) → Except PyErr (List (Int × Nat))
  | [] => .ok [(b, bid)]
  | (c, ptr) :: rest =>
    if b = c then .error .indexError
    else if b < c then .ok ((b, bid) :: (c, ptr) :: rest)
    else (fun l => (c, ptr) :: l) <$> interiorInsertE b bid rest

/-- `_BTreeInterior.insert(boundary, block_id, skip_size_check)`: the size
check (two `block.add` calls) raises `NoRoom` once the node holds `icap`
entries, unless skipped. -/
def interiorInsert (icap : Nat) (nd : BTInterior) (b : Int) (bid : Nat) (skip : Bool) :
    Except PyErr BTInterior :=
  if ¬ skip ∧ icap ≤ nd.entries.length then .error .noRoom
  else (fun es => { nd with entries := es }) <$> interiorInsertE b bid nd.entries

/-- Insertion sort of the key list (`sorted(...)` on distinct keys). -/
def insSorted (x : Int) : List Int → List Int
  | [] => [x]
  | y :: ys => if x ≤ y then x :: y :: ys else y :: insSorted x ys

/-- `sorted(keys)`. -/
def sortInts (l : List Int) : List Int := l.foldr insSorted []

/-- `_split_leaf(leaf, tkey, handle)`: merge the incoming pair into a copy
of the dict, allocate the right sister, link `next_leaf`, move the keys from
index `split = len // 2` on into the sister, and return `(sister id,
key_list[split])`.  Note the faithful slip: the incoming key is only ever
placed in the COPY `leaf_keys` and in the sister; when it sorts below
`key_list[split]` it is in neither saved leaf. -/
def btSplitLeaf (s : BTState) (leafId : Nat) (L : BTLeaf) (k : Int) (v : Handle) :
    BTState × Nat × Int :=
  let leaf_keys := L.keys ++ [(k, v)]
  let nid := s.nextBlock + 1
  let key_list := sortInts (leaf_keys.map Prod.fst)
  let split := key_list.length / 2
  let upper := key_list.drop split
  let nkeys := upper.filterMap (fun ik => (leaf_keys.lookup ik).map (fun hv => (ik, hv)))
  let keep := L.keys.filter (fun kv => ¬ upper.contains kv.1)
  let newLeaf : BTLeaf := { keys := nkeys, next_leaf := L.next_leaf }
  let oldLeaf : BTLeaf := { keys := keep, next_leaf := nid }
  let file' := fun b =>
    if b = nid then some (.leaf newLeaf)
    else if b = leafId then some (.leaf oldLeaf)
    else s.file b
  ({ s with file := file', nextBlock := nid }, nid, key_list.getD split 0)

/-- `_split_node(node, boundary, block_id)`: inserts the separator with the
size check skipped, then evaluates `node.ponters` (line 474) -- an attribute
that exists on no `_BTreeNode` (the field is `pointers`) -- so the split
raises `AttributeError` before anything is saved.  (The sister is also built
as an abstract `_BTreeNode`, whose `save()` would write no entries.) -/
def splitNode (nd : BTInterior) (boundary : Int) (blockId : Nat) :
    Except PyErr (BTInterior × BTInterior × Int) :=
  match interiorInsertE boundary blockId nd.entries with
  | .error e => .error e
  | .ok _ => .error .attributeError

/-- `_BTreeBase._insert(node, depth, tkey, handle)`: recursive insert.
At depth 1 insert into the leaf, splitting on `NoRoom`; otherwise descend
through `find`, and when the child splits, insert the returned boundary,
splitting this node in turn on `NoRoom` (`IndexError` from a duplicate key
or boundary propagates unchanged). -/
def btInsertRec (lcap icap : Nat) (s : BTState) (nodeId : Nat) :
    Nat → Int → Handle → Except PyErr (BTState × Option (Nat × Int))
  | 0, _, _ => .error .typeError
  | 1, k, v =>
    match s.file nodeId with
    | some (.leaf L) =>
      match leafInsert lcap L k v with
      | .ok L' =>
        .ok ({ s with file := fun b => if b = nodeId then some (.leaf L') else s.file b },
             none)
      | .error .noRoom =>
        let res := btSplitLeaf s nodeId L k v
        .ok (res.1, some res.2)
      | .error e => .error e
    | _ => .error .typeError
  | d + 2, k, v =>
    match s.file nodeId with
    | some (.interior nd) =>
      match btInsertRec lcap icap s (findDown k nd.first nd.entries) (d + 1) k v with
      | .error e => .error e
      | .ok (s', none) => .ok (s', none)
      | .ok (s', some (nid, boundary)) =>
        match interiorInsert icap nd boundary nid false with
        | .ok nd' =>
          .ok ({ s' with
                 file := fun b => if b = nodeId then some (.interior nd') else s'.file b },
               none)
        | .error .noRoom =>
          match splitNode nd boundary nid with
          | .ok _ => .error .typeError
          | .error e => .error e
        | .error e => .error e
    | _ => .error .typeError

/-- `_BTreeBase.insert(handle)`: recursive insert from the root; when the
root splits, grow the tree with a fresh interior root whose `first` is the
old root and whose single entry is the promoted boundary. -/
def btInsertTop (lcap icap : Nat) (s : BTState) (k : Int) (v : Handle) :
    Except PyErr BTState :=
  match btInsertRec lcap icap s s.root_id s.height k v with
  | .error e => .error e
  | .ok (s', none) => .ok s'
  | .ok (s', some (nid, boundary)) =>
    let rid := s'.nextBlock + 1
    let root : BTInterior := { first := s.root_id, entries := [(boundary, nid)] }
    .ok { file := fun b => if b = rid then some (.interior root) else s'.file b,
          root_id := rid, height := s.height + 1, nextBlock := rid }

/-- `_BTreeBase._lookup(node, depth, tkey)`: descend to the leaf where the
key must live (returns the leaf's block id together with the leaf). -/
def btLookupLeaf (s : BTState) : Nat → Nat → Option Int → Except PyErr (Nat × BTLeaf)
  | 0, _, _ => .error .typeError
  | 1, nodeId, _ =>
    match s.file nodeId with
    | some (.leaf L) => .ok (nodeId, L)
    | _ => .error .typeError
  | d + 2, nodeId, k =>
    match s.file nodeId with
    | some (.interior nd) => btLookupLeaf s (d + 1) (interiorFind nd k) k
    | _ => .error .typeError

/-- `lookup(key)`: exact-match at the leaf; `[handle]` or `[]`. -/
def btLookup (s : BTState) (k : Int) : Except PyErr (List Handle) :=
  (btLookupLeaf s s.height s.root_id (some k)).map (fun idL =>
    match idL.2.keys.lookup k with
    | some v => [v]
    | none => [])

/-- `delete(handle)`: descend, `ValueError` when the key is absent, else
remove it from the leaf's dict and save. -/
def btDelete (s : BTState) (k : Int) : Except PyErr BTState :=
  match btLookupLeaf s s.height s.root_id (some k) with
  | .error e => .error e
  | .ok (leafId, L) =>
    if (L.keys.lookup k).isSome then
      let L' : BTLeaf := { L with keys := L.keys.filter (fun kv => kv.1 ≠ k) }
      .ok { s with file := fun b => if b = leafId then some (.leaf L') else s.file b }
    else .error .valueError

/-- The `while next_leaf_id > 0` walk of `range`: emit each subsequent
leaf's sorted keys while they are at most `tmax`; the first key above `tmax`
ends the whole iteration.  Fuel-bounded (the leaf chain of a well-formed
file is acyclic); a dangling or non-leaf block ends the walk. -/
def btRangeWalk (s : BTState) (tmax : Option Int) : Nat → Nat → List Int
  | 0, _ => []
  | _, 0 => []
  | fuel + 1, nl =>
    match s.file nl with
    | some (.leaf L) =>
      let ks := sortInts (L.keys.map Prod.fst)
      let emitted := ks.takeWhile (fun k =>
        match tmax with
        | none => true
        | some mx => decide (k ≤ mx))
      if emitted.length = ks.length then emitted ++ btRangeWalk s tmax fuel L.next_leaf
      else emitted
    | _ => []

/-- `range(minkey, maxkey, return_keys=True)`: descend to the leaf that
would hold `tmin` (the leftmost leaf when `tmin is None`), emit its sorted
keys that are `>= tmin` -- with NO upper-bound check on this first leaf --
then follow `next_leaf` with the `> tmax` cutoff. -/
def btRangeKeys (s : BTState) (tmin tmax : Option Int) : Except PyErr (List Int) :=
  (btLookupLeaf s s.height s.root_id tmin).map (fun idL =>
    let start := idL.2
    let firstKeys := (sortInts (start.keys.map Prod.fst)).filter (fun k =>
      match tmin with
      | none => true
      | some mn => decide (mn ≤ k))
    firstKeys ++ btRangeWalk s tmax (s.nextBlock + 1) start.next_leaf)

/-- Run a sequence of inserts on a fresh index
(`create()` followed by `insert` per row). -/
def btRun (lcap icap : Nat) (ops : List (Int × Handle)) : Except PyErr BTState :=
  ops.foldlM (fun s op => btInsertTop lcap icap s op.1 op.2) btCreateState

/-!
Extendible-hash index model (`hash_index.py`).  A bucket is modelled at the
level of its contents: the header record's `(hash_prefix, bits_used)` pair
and the data records, each a full 16-bit hash with its handle list.  The
bucket pages live in a `buckets` map (block id to bucket), the in-memory
`bucket_address_table` is the indexing function the code maintains (the
doubled table built by appending each entry twice is the function
`i -> old (i / 2)` with the two split slots repointed).  The only observable
consequence of the `SlottedPage` byte accounting inside a bucket is when
`block.add` / `block.put` raise `NoRoom`; that trigger is abstracted by a
`fits` oracle, so the theorems hold for every possible trigger, the real
byte-level one included.  `unique=False` (no duplicate-entry raise), as in
the index's own test. -/

/-- `MAX_BITS = 16`. -/
def MAX_BITS : Nat := 16

/-- `_HashBucket` contents: header `(hash_prefix, bits_used)` plus the data
records `(full_hash, handles)` in block order. -/
structure HashBucket where
  hashPfx : Nat
  bitsUsed : Nat
  records : List (Nat × List Handle)
deriving DecidableEq

/-- `HashIndex` state: bucket pages, the in-memory bucket address table
(`bat` indexed by the top `btb` hash bits), `bucket_table_bits`, and the
bucket file's `last` block id. -/
structure HashIdx where
  buckets : Nat → Option HashBucket
  bat : Nat → Nat
  btb : Nat
  nextBlock : Nat

/-- `create()`: one empty bucket (block 1) with `hash_prefix = 0`,
`bits_used = 0`; a one-entry bucket address table; `bucket_table_bits = 0`. -/
def hashCreateState : HashIdx :=
  { buckets := fun b => if b = 1 then some { hashPfx := 0, bitsUsed := 0, records := [] }
                        else none,
    bat := fun _ => 1, btb := 0, nextBlock := 1 }

/-- Whether the bucket page can also store hash `h` with the given (full,
updated) handle list: abstracts the `SlottedPage` room check behind
`block.add` / `block.put` in `_HashBucket.add`. -/
abbrev FitsOracle := HashBucket → Nat → List Handle → Bool

/-- `_HashBucket._find(h)` data: the stored handle list for hash `h`. -/
def bucketFind (B : HashBucket) (h : Nat) : Option (List Handle) :=
  (B.records.find? (fun rec => rec.1 == h)).map Prod.snd

/-- `_HashBucket.add(h, handle)` (with `unique=False`): append the handle to
the existing record for `h`, or add a fresh record; `NoRoom` when the page
cannot take the grown record. -/
def bucketAdd (fits : FitsOracle) (B : HashBucket) (h : Nat) (hd : Handle) :
    Except PyErr HashBucket :=
  match bucketFind B h with
  | none =>
    if fits B h [hd] then .ok { B with records := B.records ++ [(h, [hd])] }
    else .error .noRoom
  | some hs =>
    if fits B h (hs ++ [hd]) then
      .ok { B with records := B.records.map (fun rec =>
              if rec.1 == h then (rec.1, rec.2 ++ [hd]) else rec) }
    else .error .noRoom

/-- `_HashBucket.add(h, handles, new_list=True)`, used only while
redistributing into the fresh sister bucket (where `h` is always absent;
on a present hash the Python code would append the list as one element,
which no reachable state does). -/
def bucketAddList (fits : FitsOracle) (B : HashBucket) (h : Nat) (hs : List Handle) :
    Except PyErr HashBucket :=
  match bucketFind B h with
  | none =>
    if fits B h hs then .ok { B with records := B.records ++ [(h, hs)] }
    else .error .noRoom
  | some _ => .error .typeError

/-- `_HashBucket.delete(h)`: drop the record for hash `h`. -/
def bucketDelete (B : HashBucket) (h : Nat) : HashBucket :=
  { B with records := B.records.filter (fun rec => ¬ rec.1 == h) }

/-- `bucket_table_entry = h >> (MAX_BITS - bucket_table_bits)`. -/
def hashSlotOf (s : HashIdx) (h : Nat) : Nat := h >>> (MAX_BITS - s.btb)

/-- `lookup` through `_get_bucket`: the handle list stored for `h` in the
bucket the address table names.  (The Python wrapper additionally filters
the handles against the relation's rows to discard full-key collisions.) -/
def hashLookup (s : HashIdx) (h : Nat) : List Handle :=
  match s.buckets (s.bat (hashSlotOf s h)) with
  | none => []
  | some B => (bucketFind B h).getD []

/-- `HashIndex._split(bucket)`.  At `bits_used == MAX_BITS` the code runs
`h, handles = bucket.lookup()`, but `lookup()` returns a bare handle list,
so the unpacking raises (and the overflow `FixedHeapTable` it would then
open was never created, raising `DBNoSuchFileError`): the conversion to an
overflow bucket always fails before mutating anything.  Otherwise split the
prefix into `h0 = 2p`, `h1 = 2p+1`, move the records whose next hash bit is
1 into a fresh sister bucket, and repoint or double the address table. -/
def hashSplit (fits : FitsOracle) (s : HashIdx) (bid : Nat) (B : HashBucket) :
    Except PyErr HashIdx :=
  if B.bitsUsed = MAX_BITS then .error .valueError
  else
    let h0 := B.hashPfx * 2
    let h1 := h0 + 1
    let bits1 := B.bitsUsed + 1
    let toMove := B.records.filter (fun rec => rec.1 >>> (MAX_BITS - bits1) == h1)
    let keep := B.records.filter (fun rec => ¬ (rec.1 >>> (MAX_BITS - bits1) == h1))
    let B0 : HashBucket := { hashPfx := h0, bitsUsed := bits1, records := keep }
    let nb := s.nextBlock + 1
    match toMove.foldlM (fun acc rec => bucketAddList fits acc rec.1 rec.2)
        ({ hashPfx := h1, bitsUsed := bits1, records := [] } : HashBucket) with
    | .error e => .error e
    | .ok B1 =>
      let buckets' := fun b =>
        if b = nb then some B1 else if b = bid then some B0 else s.buckets b
      if bits1 ≤ s.btb then
        let lo := h1 <<< (s.btb - bits1)
        let hi := (h1 + 1) <<< (s.btb - bits1)
        .ok { buckets := buckets',
              bat := fun i => if lo ≤ i ∧ i < hi then nb else s.bat i,
              btb := s.btb, nextBlock := nb }
      else
        .ok { buckets := buckets',
              bat := fun i => if i = h0 then bid else if i = h1 then nb else s.bat (i / 2),
              btb := s.btb + 1, nextBlock := nb }

/-- `HashIndex.insert(handle)` for a row hashing to `h`: the
`while not success` retry loop, fuel-bounded.  An overflow bucket
(`bits_used > MAX_BITS`, reachable in no state the theorems construct) would
open a `FixedHeapTable` that was never created.  A `ValueError` from
`bucket.add` triggers `_split` and a retry through `_get_bucket`. -/
def hashInsertLoop (fits : FitsOracle) : Nat → HashIdx → Nat → Handle → Except PyErr HashIdx
  | 0, _, _, _ => .error .fuelEmpty
  | fuel + 1, s, h, hd =>
    let bid := s.bat (hashSlotOf s h)
    match s.buckets bid with
    | none => .error .keyError
    | some B =>
      if MAX_BITS < B.bitsUsed then .error .noSuchFile
      else
        match bucketAdd fits B h hd with
        | .ok B' =>
          .ok { s with buckets := fun b => if b = bid then some B' else s.buckets b }
        | .error _ =>
          match hashSplit fits s bid B with
          | .error e => .error e
          | .ok s' => hashInsertLoop fits fuel s' h hd

/-- A sequence of `insert` calls on a freshly created index. -/
def hashRun (fits : FitsOracle) (fuel : Nat) (ops : List (Nat × Handle)) :
    Except PyErr HashIdx :=
  ops.foldlM (fun s op => hashInsertLoop fits fuel s op.1 op.2) hashCreateState

/-- Well-formedness of a hash-index state, as established by `create()` and
maintained by `insert`:
* the table has `btb <= 16` index bits;
* every allocated bucket id is at most `last`;
* every bucket uses at most `btb` bits and stores a prefix of that width;
* every live address-table slot points to an existing bucket whose stored
  `(hash_prefix, bits_used)` matches the slot index truncated to its
  `bits_used` high bits (the claim's slot invariant);
* every slot the bucket's prefix covers points back to that bucket;
* record hashes are 16-bit, agree with their bucket's prefix, and are
  pairwise distinct within a bucket. -/
structure HashWF (s : HashIdx) : Prop where
  btb_le : s.btb ≤ MAX_BITS
  fresh : ∀ b B, s.buckets b = some B → b ≤ s.nextBlock
  bucket_ok : ∀ b B, s.buckets b = some B →
    B.bitsUsed ≤ s.btb ∧ B.hashPfx < 2 ^ B.bitsUsed
  slot : ∀ i, i < 2 ^ s.btb → ∃ B, s.buckets (s.bat i) = some B ∧
    B.bitsUsed ≤ s.btb ∧ B.hashPfx = i >>> (s.btb - B.bitsUsed)
  coverage : ∀ b B, s.buckets b = some B → ∀ i, i < 2 ^ s.btb →
    i >>> (s.btb - B.bitsUsed) = B.hashPfx → s.bat i = b
  recs : ∀ b B, s.buckets b = some B →
    (B.records.map Prod.fst).Nodup ∧
    ∀ rec ∈ B.records, rec.1 < 2 ^ MAX_BITS ∧
      rec.1 >>> (MAX_BITS - B.bitsUsed) = B.hashPfx

/-- Concrete pages used to instantiate the frame theorems: a 64-byte
slotted page holding records `[1,2,3]` (id 1) and `[4,5]` (id 2), the page
after `put(2, [9])`, and a fixed-length block (`data_length = 2`,
`block_size = 10`) holding two records. -/
def demoPage1 : SlottedPage :=
  ((slottedAdd (emptySlottedPage 64) [1, 2, 3]).toOption.getD (emptySlottedPage 0, 0)).1

def demoPage2 : SlottedPage :=
  ((slottedAdd demoPage1 [4, 5]).toOption.getD (emptySlottedPage 0, 0)).1

def demoPut : SlottedPage :=
  (slottedPut demoPage2 2 [9]).toOption.getD (emptySlottedPage 0)

def demoFixedB : FixedPage :=
  ((fixedAdd (fixedNew 2 10) [7, 8]).toOption.getD (fixedNew 2 10, 0)).1

def demoFixedC : FixedPage :=
  ((fixedAdd demoFixedB [9, 10]).toOption.getD (fixedNew 2 10, 0)).1

/-- A tight room oracle: a bucket page has room only while it is empty
(standing in for a tiny `SlottedPage`, it forces `insert` to split). -/
def tightFits : FitsOracle := fun B _ _ => B.records.isEmpty

/-- Two inserts through the real insert loop under `tightFits`: hashes 0 and
32768 = 2^15; the second insert finds bucket 1 full and forces a split that
doubles the bucket address table. -/
def demoHashS : HashIdx :=
  (hashRun tightFits 5 [(0, (1, 1)), (32768, (1, 2))]).toOption.getD hashCreateState

/-!
Theorems.  Each claim of the specification gets exactly one main theorem
(with a witness when the theorem carries hypotheses); corrected claims also
get a counterexample theorem refuting the original wording at a concrete
input.
-/

/-- Claim C6: the claim describes the intended interior split (insert the
separator oversized, promote `boundaries[split]`, move the upper halves to a
new interior sibling whose first child is `pointers[split]`, return sibling
and separator).  The code instead evaluates the misspelled attribute
`node.ponters` (btree_index.py line 474), so every interior split raises
`AttributeError` before returning anything: here evaluated on the interior
node `first = 1, boundaries = [10, 20, 30], pointers = [2, 3, 4]` receiving
separator 40 with new child 9. -/
theorem C6_interior_split_raises :
    splitNode { first := 1, entries := [(10, 2), (20, 3), (30, 4)] } 40 9 =
      .error .attributeError := rfl

/-- Claim C1: the claim says a key inserted and not deleted is found by
`lookup`.  Counter-run: with leaf capacity 4, inserting keys 10, 20, 30, 40
and then 5 forces a leaf split in which the new key 5 sorts below the median
`key_list[split] = 20`; `_split_leaf` places it only in the discarded local
copy `leaf_keys`, so the saved left leaf keeps `{10}`, the sister gets
`{20, 30, 40}`, and key 5 is in neither: `lookup(5)` returns `[]` while the
other four keys are still found. -/
theorem C1_insert_lookup_loses_split_key :
    ((btRun 4 10 [(10, (1, 1)), (20, (1, 2)), (30, (1, 3)), (40, (1, 4)),
        (5, (1, 5))]).bind (fun s => btLookup s 5) = .ok []) ∧
    ((btRun 4 10 [(10, (1, 1)), (20, (1, 2)), (30, (1, 3)), (40, (1, 4)),
        (5, (1, 5))]).bind (fun s => btLookup s 10) = .ok [(1, 1)]) ∧
    ((btRun 4 10 [(10, (1, 1)), (20, (1, 2)), (30, (1, 3)), (40, (1, 4)),
        (5, (1, 5))]).bind (fun s => btLookup s 20) = .ok [(1, 2)]) ∧
    ((btRun 4 10 [(10, (1, 1)), (20, (1, 2)), (30, (1, 3)), (40, (1, 4)),
        (5, (1, 5))]).bind (fun s => btLookup s 30) = .ok [(1, 3)]) ∧
    ((btRun 4 10 [(10, (1, 1)), (20, (1, 2)), (30, (1, 3)), (40, (1, 4)),
        (5, (1, 5))]).bind (fun s => btLookup s 40) = .ok [(1, 4)]) :=
  ⟨rfl, rfl, rfl, rfl, rfl⟩

/-- Claim C2: the claim says `range(min, max)` yields exactly the keys with
`min <= k <= max`.  On a one-leaf tree holding keys 10 and 20,
`range(5, 15)` yields `[10, 20]`: the first-leaf loop of `range` filters
only by `tkey >= tmin` and never checks `tmax`, so 20 > 15 is emitted,
contradicting the claim (and the method's own docstring). -/
theorem C2_range_ignores_max_on_first_leaf :
    (btRun 10 10 [(10, (1, 1)), (20, (1, 2))]).bind
      (fun s => btRangeKeys s (some 5) (some 15)) = .ok [10, 20] := rfl

/-- Claim C4 (counterexample): a `HeapTable` over the single TEXT column
`b`, one block of size 32 holding the marshalled row `{b: 'B'*17}` (19
bytes, filling the page), then `update` with `{b: 'C'*18}`: the grown record
does not fit, `SlottedPage.put` raises `NoRoom`, and `HeapTable.update`
propagates it to the caller instead of recovering. -/
theorem C4_update_propagates_noroom_cex :
    (slottedAdd (emptySlottedPage 32)
        (marshalRow [("b", ColType.TEXT)] [("b", Value.text (List.replicate 17 66))])).bind
      (fun pr => heapTableUpdate [("b", ColType.TEXT)] pr.1 1
        [("b", Value.text (List.replicate 18 67))]) = .error .noRoom := rfl

/-- Claim C5 (counterexample): on a fresh `SlottedPage` of size 32
(`N = 0`, `E = 31`), the claim's free-space formula gives
`E - (4*(N+1) - 1) = 28`, so a 20-byte payload (needing `20 + 4 = 24`)
should fit; but `_has_room` computes `E - 4*(N+2) = 23` and `add` raises
`NoRoom`. -/
theorem C5_add_threshold_cex :
    slottedAdd (emptySlottedPage 32) (List.replicate 20 7) = .error .noRoom ∧
    ((20 : Int) + 4 ≤ (31 : Int) - (4 * (0 + 1) - 1)) :=
  ⟨rfl, by decide⟩

/-- Claim C10 (counterexample): after adding one 40-byte record of byte 255
to a fresh page of size 64, the page has `num_records = 1`, yet
`get(7)` -- an id never allocated -- returns the (empty) byte slice
`b''`, not `None`: slot 7's header bytes lie inside the record's data and
read as `size = loc = 0xffff`, so the `loc = 0` tombstone test fails and an
out-of-range slice is returned. -/
theorem C10_get_unallocated_cex :
    (slottedAdd (emptySlottedPage 64) (List.replicate 40 255)).map
      (fun pr => (pr.1.num_records, slottedGet pr.1 7)) = .ok (1, some []) := rfl

/-- Claim C8 (counterexample): page of size 32, `add(b'AAAA')` (id 1),
`add(b'')` (id 2, a zero-length record whose `loc` coincides with record
1's start), then `put(2, b'ZZ')`: the grow-path `_slide` moves record 1's
header left by 2 without moving its bytes, and the new data overwrite lands
on record 1's first two bytes, so `get(1)` silently changes from `b'AAAA'`
to `b'ZZAA'` although record 1 was neither deleted nor put. -/
theorem C8_put_on_other_id_changes_get_cex :
    ((slottedAdd (emptySlottedPage 32) [65, 65, 65, 65]).bind (fun pr1 =>
      (slottedAdd pr1.1 []).bind (fun pr2 =>
        (slottedPut pr2.1 2 [90, 90]).map (fun q =>
          (slottedGet pr2.1 1, slottedGet q 1))))) =
      .ok (some [65, 65, 65, 65], some [90, 90, 65, 65]) := rfl

theorem bytesToNatBE_natToBytes2 (n : Nat) (h : n < 65536) :
    bytesToNatBE (natToBytes2 n) = n := by
  show (0 * 256 + n / 256 % 256) * 256 + n % 256 = n
  omega

theorem intToBytes4_length (i : Int) : (intToBytes4 i).length = 4 := by
  simp [intToBytes4]

theorem natToBytes2_length (n : Nat) : (natToBytes2 n).length = 2 := rfl

theorem int4_roundtrip (i : Int) (h1 : -2147483648 ≤ i) (h2 : i < 2147483648) :
    natToInt4 (bytesToNatBE (intToBytes4 i)) = i := by
  unfold natToInt4 bytesToNatBE intToBytes4
  have h3 : (0 : Int) ≤ i % 4294967296 := Int.emod_nonneg _ (by norm_num)
  have h4 : i % 4294967296 < 4294967296 := Int.emod_lt_of_pos _ (by norm_num)
  have h5 : ((i % 4294967296).toNat : Int) = i % 4294967296 := Int.toNat_of_nonneg h3
  set n := (i % 4294967296).toNat with hn
  have h6 : n < 4294967296 := by omega
  have h7 : (((0 * 256 + n / 16777216 % 256) * 256 + n / 65536 % 256) * 256 +
      n / 256 % 256) * 256 + n % 256 = n := by omega
  simp only [List.foldl, h7]
  have h8 : i % 4294967296 = i ∨ i % 4294967296 = i + 4294967296 := by omega
  split <;> omega

theorem take_len_append {a : Type} (l1 l2 : List a) (n : Nat) (h : l1.length = n) :
    (l1 ++ l2).take n = l1 := by
  subst h; exact List.take_left l1 l2

theorem drop_len_append {a : Type} (l1 l2 : List a) (n : Nat) (h : l1.length = n) :
    (l1 ++ l2).drop n = l2 := by
  subst h; exact List.drop_left l1 l2

theorem marshalRow_skip (srest : Schema) (name : String) (v : Value) (rrest : Row)
    (h : ¬ name ∈ srest.map Prod.fst) :
    marshalRow srest ((name, v) :: rrest) = marshalRow srest rrest := by
  induction srest with
  | nil => rfl
  | cons hd tl ih =>
    obtain ⟨nm, t⟩ := hd
    simp only [List.map_cons, List.mem_cons] at h
    push_neg at h
    have hne : (nm == name) = false := by
      simp only [beq_eq_false_iff_ne]
      exact fun hc => h.1 hc.symm
    simp only [marshalRow, rowGet, List.lookup, hne]
    rw [ih h.2]

/-- Claim C7: for every schema over INT, BOOLEAN and TEXT columns with
distinct column names and every row typed to it (INT within 4-byte signed
range, TEXT encoding shorter than 2^16 bytes), `_unmarshal(_marshal(row))`
is `row` again. -/
theorem C7_marshal_unmarshal_roundtrip (schema : Schema) (row : Row)
    (hnodup : (schema.map Prod.fst).Nodup)
    (ht : typedRow schema row = true) :
    unmarshalRow schema (marshalRow schema row) = row := by
  induction schema generalizing row with
  | nil =>
    cases row with
    | nil => rfl
    | cons hd tl => simp [typedRow] at ht
  | cons hd srest ih =>
    obtain ⟨name, t⟩ := hd
    cases row with
    | nil => cases t <;> simp [typedRow] at ht
    | cons hd' rrest =>
      obtain ⟨name', v⟩ := hd'
      simp only [List.map_cons, List.nodup_cons] at hnodup
      obtain ⟨hnotin, hnd⟩ := hnodup
      cases t <;> cases v <;>
        first
          | (simp only [typedRow] at ht; exact Bool.noConfusion ht)
          | skip
      case INT.int i =>
        simp only [typedRow, Bool.and_eq_true, beq_iff_eq, decide_eq_true_eq] at ht
        obtain ⟨⟨⟨hname, hlo⟩, hhi⟩, htl⟩ := ht
        subst hname
        have hget : rowGet ((name, Value.int i) :: rrest) name = some (Value.int i) := by
          simp [rowGet, List.lookup]
        simp only [marshalRow, unmarshalRow, hget, Option.getD_some, encodeVal]
        rw [marshalRow_skip srest name _ rrest hnotin]
        rw [take_len_append _ _ _ (intToBytes4_length i),
          drop_len_append _ _ _ (intToBytes4_length i)]
        rw [int4_roundtrip i hlo hhi, ih rrest hnd htl]
      case BOOLEAN.bool b =>
        simp only [typedRow, Bool.and_eq_true, beq_iff_eq] at ht
        obtain ⟨hname, htl⟩ := ht
        subst hname
        have hget : rowGet ((name, Value.bool b) :: rrest) name = some (Value.bool b) := by
          simp [rowGet, List.lookup]
        simp only [marshalRow, unmarshalRow, hget, Option.getD_some, encodeVal]
        rw [marshalRow_skip srest name _ rrest hnotin]
        have hl1 : ([if b then 1 else 0] : List Nat).length = 1 := by cases b <;> rfl
        rw [take_len_append _ _ _ hl1, drop_len_append _ _ _ hl1]
        rw [ih rrest hnd htl]
        cases b <;> rfl
      case TEXT.text bs =>
        simp only [typedRow, Bool.and_eq_true, beq_iff_eq, decide_eq_true_eq] at ht
        obtain ⟨⟨⟨hname, hlen⟩, _⟩, htl⟩ := ht
        subst hname
        have hget : rowGet ((name, Value.text bs) :: rrest) name = some (Value.text bs) := by
          simp [rowGet, List.lookup]
        simp only [marshalRow, unmarshalRow, hget, Option.getD_some, encodeVal,
          List.append_assoc]
        rw [marshalRow_skip srest name _ rrest hnotin]
        rw [take_len_append _ _ _ (natToBytes2_length bs.length),
          drop_len_append _ _ _ (natToBytes2_length bs.length)]
        rw [bytesToNatBE_natToBytes2 bs.length hlen]
        rw [take_len_append bs _ _ rfl, drop_len_append bs _ _ rfl]
        rw [ih rrest hnd htl]

/-- Witness for C7 at the schema `(a INT, flag BOOLEAN, t TEXT)` and the row
`{a: -192, flag: True, t: 'hi'}`. -/
theorem C7_marshal_unmarshal_roundtrip_witness :
    unmarshalRow [("a", ColType.INT), ("flag", ColType.BOOLEAN), ("t", ColType.TEXT)]
      (marshalRow [("a", ColType.INT), ("flag", ColType.BOOLEAN), ("t", ColType.TEXT)]
        [("a", Value.int (-192)), ("flag", Value.bool true), ("t", Value.text [104, 105])]) =
      [("a", Value.int (-192)), ("flag", Value.bool true), ("t", Value.text [104, 105])] :=
  C7_marshal_unmarshal_roundtrip _ _ (by decide) (by decide)

theorem write1_self (m : Mem) (i v : Nat) : write1 m i v i = v := by
  simp [write1]

theorem write1_ne (m : Mem) (i v j : Nat) (h : j ≠ i) : write1 m i v j = m j := by
  simp [write1, h]

theorem writeN2_ne (m : Mem) (i n j : Nat) (h1 : j ≠ i) (h2 : j ≠ i + 1) :
    writeN2 m i n j = m j := by
  simp [writeN2, write1, h1, h2]

theorem writeN2_at0 (m : Mem) (i n : Nat) : writeN2 m i n i = n / 256 % 256 := by
  simp [writeN2, write1]

theorem writeN2_at1 (m : Mem) (i n : Nat) : writeN2 m i n (i + 1) = n % 256 := by
  simp [writeN2, write1]

theorem writeBytes_ne (d : List Nat) (m : Mem) (i j : Nat)
    (h : j < i ∨ i + d.length ≤ j) : writeBytes m i d j = m j := by
  induction d generalizing m i with
  | nil => rfl
  | cons b rest ih =>
    simp only [writeBytes, List.length_cons] at *
    rw [ih _ _ (by omega), write1_ne _ _ _ _ (by omega)]

theorem writeBytes_get (d : List Nat) (m : Mem) (i k : Nat) (h : k < d.length) :
    writeBytes m i d (i + k) = d.getD k 0 := by
  induction d generalizing m i k with
  | nil => simp at h
  | cons b rest ih =>
    cases k with
    | zero =>
      simp only [writeBytes, List.getD, Nat.add_zero]
      rw [writeBytes_ne _ _ _ _ (by omega), write1_self]
      rfl
    | succ k' =>
      simp only [writeBytes]
      have : i + (k' + 1) = (i + 1) + k' := by omega
      rw [this, ih _ _ _ (by simpa using Nat.lt_of_succ_lt_succ h)]
      rfl

theorem memGetN_congr (m1 m2 : Mem) (bs i : Nat)
    (h0 : m1 i = m2 i) (h1 : m1 (i + 1) = m2 (i + 1)) :
    memGetN m1 bs i = memGetN m2 bs i := by
  simp [memGetN, h0, h1]

theorem memGetN_writeN2_self (m : Mem) (bs i n : Nat) (h1 : i + 1 < bs)
    (h2 : n < 65536) : memGetN (writeN2 m i n) bs i = n := by
  rw [memGetN, if_pos h1, writeN2_at0, writeN2_at1]
  omega

theorem memGetN_writeN2_ne (m : Mem) (bs i n j : Nat)
    (h : j + 1 < i ∨ i + 1 < j) : memGetN (writeN2 m i n) bs j = memGetN m bs j := by
  apply memGetN_congr <;> rw [writeN2_ne] <;> omega

theorem getN_eq_memGetN (p : SlottedPage) (i : Nat) :
    getN p i = memGetN p.mem p.block_size i := rfl

theorem readSlice_congr (m1 m2 : Mem) (loc size bs : Nat)
    (h : ∀ k, k < size → loc + k < bs → m1 (loc + k) = m2 (loc + k)) :
    readSlice m1 loc size bs = readSlice m2 loc size bs := by
  unfold readSlice
  apply List.map_congr_left
  intro k hk
  simp only [List.mem_range] at hk
  exact h k (by omega) (by omega)

theorem readSlice_writeBytes (d : List Nat) (m : Mem) (loc bs : Nat)
    (h : loc + d.length ≤ bs) :
    readSlice (writeBytes m loc d) loc d.length bs = d := by
  unfold readSlice
  have hmin : min d.length (bs - loc) = d.length := by omega
  rw [hmin]
  apply List.ext_getElem
  · simp
  · intro k hk1 hk2
    simp only [List.getElem_map, List.getElem_range]
    rw [writeBytes_get d m loc k (by simpa using hk2)]
    exact List.getD_eq_getElem d 0 (by simpa using hk2)

theorem putHeaderR_mem_ne (p : SlottedPage) (r size loc j : Nat)
    (h : j < 4 * r ∨ 4 * r + 4 ≤ j) : (putHeaderR p r size loc).mem j = p.mem j := by
  show writeN2 (writeN2 p.mem (4 * r) size) (4 * r + 2) loc j = p.mem j
  rw [writeN2_ne _ _ _ _ (by omega) (by omega), writeN2_ne _ _ _ _ (by omega) (by omega)]

theorem getHeader_putHeaderR_self (p : SlottedPage) (r size loc : Nat)
    (hb : 4 * r + 3 < p.block_size) (hs : size < 65536) (hl : loc < 65536) :
    getHeader (putHeaderR p r size loc) r = (size, loc) := by
  unfold getHeader
  rw [getN_eq_memGetN, getN_eq_memGetN]
  show (memGetN (writeN2 (writeN2 p.mem (4 * r) size) (4 * r + 2) loc) p.block_size (4 * r),
        memGetN (writeN2 (writeN2 p.mem (4 * r) size) (4 * r + 2) loc) p.block_size (4 * r + 2)) =
    (size, loc)
  rw [memGetN_writeN2_ne _ _ _ _ _ (by omega),
    memGetN_writeN2_self _ _ _ _ (by omega) hs,
    memGetN_writeN2_self _ _ _ _ (by omega) hl]

theorem getN_congr (q p : SlottedPage) (i : Nat) (hbs : q.block_size = p.block_size)
    (h0 : q.mem i = p.mem i) (h1 : q.mem (i + 1) = p.mem (i + 1)) : getN q i = getN p i := by
  rw [getN_eq_memGetN, getN_eq_memGetN, hbs]
  exact memGetN_congr _ _ _ _ h0 h1

theorem getHeader_putHeaderR_other (p : SlottedPage) (r size loc r' : Nat)
    (h : r' ≠ r) : getHeader (putHeaderR p r size loc) r' = getHeader p r' := by
  unfold getHeader
  rw [getN_congr (putHeaderR p r size loc) p (4 * r') rfl
      (putHeaderR_mem_ne _ _ _ _ _ (by omega)) (putHeaderR_mem_ne _ _ _ _ _ (by omega)),
    getN_congr (putHeaderR p r size loc) p (4 * r' + 2) rfl
      (putHeaderR_mem_ne _ _ _ _ _ (by omega)) (putHeaderR_mem_ne _ _ _ _ _ (by omega))]

theorem putHeaderR_block_size (p : SlottedPage) (r s l : Nat) :
    (putHeaderR p r s l).block_size = p.block_size := rfl

theorem putHeaderR_num_records (p : SlottedPage) (r s l : Nat) :
    (putHeaderR p r s l).num_records = p.num_records := rfl

theorem putHeaderR_end_free (p : SlottedPage) (r s l : Nat) :
    (putHeaderR p r s l).end_free = p.end_free := rfl

theorem slideFixOne_block_size (start : Nat) (shift : Int) (q : SlottedPage) (r : Nat) :
    (slideFixOne start shift q r).block_size = q.block_size := by
  simp only [slideFixOne]; split <;> rfl

theorem slideFixOne_num_records (start : Nat) (shift : Int) (q : SlottedPage) (r : Nat) :
    (slideFixOne start shift q r).num_records = q.num_records := by
  simp only [slideFixOne]; split <;> rfl

theorem slideFixOne_end_free (start : Nat) (shift : Int) (q : SlottedPage) (r : Nat) :
    (slideFixOne start shift q r).end_free = q.end_free := by
  simp only [slideFixOne]; split <;> rfl

theorem slideFixUpTo_block_size (start : Nat) (shift : Int) (p : SlottedPage) (k : Nat) :
    (slideFixUpTo start shift p k).block_size = p.block_size := by
  induction k with
  | zero => rfl
  | succ k ih => rw [slideFixUpTo, slideFixOne_block_size, ih]

theorem slideFixUpTo_num_records (start : Nat) (shift : Int) (p : SlottedPage) (k : Nat) :
    (slideFixUpTo start shift p k).num_records = p.num_records := by
  induction k with
  | zero => rfl
  | succ k ih => rw [slideFixUpTo, slideFixOne_num_records, ih]

theorem slideFixUpTo_end_free (start : Nat) (shift : Int) (p : SlottedPage) (k : Nat) :
    (slideFixUpTo start shift p k).end_free = p.end_free := by
  induction k with
  | zero => rfl
  | succ k ih => rw [slideFixUpTo, slideFixOne_end_free, ih]

theorem slideFixOne_mem_frame (start : Nat) (shift : Int) (q : SlottedPage) (r j : Nat)
    (h : j < 4 * r ∨ 4 * r + 4 ≤ j) : (slideFixOne start shift q r).mem j = q.mem j := by
  simp only [slideFixOne]
  split
  · exact putHeaderR_mem_ne _ _ _ _ _ h
  · rfl

theorem slideFixUpTo_mem_frame (start : Nat) (shift : Int) (p : SlottedPage) (k j : Nat)
    (h : j < 4 ∨ 4 * k + 4 ≤ j) : (slideFixUpTo start shift p k).mem j = p.mem j := by
  induction k with
  | zero => rfl
  | succ k ih =>
    rw [slideFixUpTo, slideFixOne_mem_frame _ _ _ _ _ (by omega), ih (by omega)]

theorem slideFixUpTo_header_frame (start : Nat) (shift : Int) (p : SlottedPage) (k r : Nat)
    (h : r = 0 ∨ k < r) : getHeader (slideFixUpTo start shift p k) r = getHeader p r := by
  unfold getHeader
  rw [getN_congr _ p _ (slideFixUpTo_block_size _ _ _ _)
      (slideFixUpTo_mem_frame _ _ _ _ _ (by omega)) (slideFixUpTo_mem_frame _ _ _ _ _ (by omega)),
    getN_congr _ p _ (slideFixUpTo_block_size _ _ _ _)
      (slideFixUpTo_mem_frame _ _ _ _ _ (by omega)) (slideFixUpTo_mem_frame _ _ _ _ _ (by omega))]

theorem slideFixUpTo_header (start : Nat) (shift : Int) (p : SlottedPage) (k : Nat)
    (hb : 4 * k + 3 < p.block_size)
    (hval : ∀ r, 1 ≤ r → r ≤ k → (getHeader p r).2 ≠ 0 → (getHeader p r).2 ≤ start →
      (getHeader p r).1 < 65536 ∧ (((getHeader p r).2 : Int) + shift).toNat < 65536) :
    ∀ r, 1 ≤ r → r ≤ k →
      getHeader (slideFixUpTo start shift p k) r = fixedHdr start shift (getHeader p r) := by
  induction k with
  | zero => intro r h1 h2; omega
  | succ k ih =>
    intro r h1 h2
    rcases Nat.lt_or_ge r (k + 1) with hr | hr
    · -- r <= k: the final iteration writes only slot k+1
      rw [slideFixUpTo]
      have hfix := ih (by omega) (fun r' hr1 hr2 => hval r' hr1 (by omega)) r h1 (by omega)
      simp only [slideFixOne]
      split
      · rw [getHeader_putHeaderR_other _ _ _ _ _ (by omega), hfix]
      · rw [hfix]
    · -- r = k+1: previous iterations left slot k+1 alone
      have hreq : r = k + 1 := by omega
      subst hreq
      rw [slideFixUpTo]
      have hprev : getHeader (slideFixUpTo start shift p k) (k + 1) = getHeader p (k + 1) :=
        slideFixUpTo_header_frame _ _ _ _ _ (by omega)
      simp only [slideFixOne, hprev]
      unfold fixedHdr
      split
      case isTrue hcond =>
        rw [getHeader_putHeaderR_self]
        · rw [slideFixUpTo_block_size]; omega
        · exact (hval (k + 1) (by omega) (by omega) hcond.1 hcond.2).1
        · exact (hval (k + 1) (by omega) (by omega) hcond.1 hcond.2).2
      case isFalse hcond => rw [hprev]

theorem slottedSlide_eq (p : SlottedPage) (start endo : Nat) (hne : endo ≠ start) :
    slottedSlide p start endo =
      putHeader0
        { slideFixUpTo start ((endo : Int) - (start : Int))
            { p with mem := slideMem p start endo } p.num_records with
          end_free := ((p.end_free : Int) + ((endo : Int) - (start : Int))).toNat } := by
  unfold slottedSlide
  rw [if_neg hne]

theorem slideMem_low (p : SlottedPage) (start endo j : Nat)
    (h : (j : Int) < (p.end_free + 1 : Int) + ((endo : Int) - (start : Int)) ∨
      (endo : Int) ≤ (j : Int)) :
    slideMem p start endo j = p.mem j := by
  unfold slideMem
  rw [if_neg]
  omega

theorem slideMem_copy (p : SlottedPage) (start endo j : Nat)
    (h1 : (p.end_free + 1 : Int) + ((endo : Int) - (start : Int)) ≤ (j : Int))
    (h2 : (j : Int) < (endo : Int)) :
    slideMem p start endo j = p.mem ((j : Int) - ((endo : Int) - (start : Int))).toNat := by
  unfold slideMem
  rw [if_pos ⟨h1, h2⟩]

theorem putHeader0_block_size (p : SlottedPage) : (putHeader0 p).block_size = p.block_size := rfl

theorem putHeader0_num_records (p : SlottedPage) : (putHeader0 p).num_records = p.num_records := rfl

theorem putHeader0_end_free (p : SlottedPage) : (putHeader0 p).end_free = p.end_free := rfl

theorem getHeader_putHeader0 (p : SlottedPage) (r : Nat) (h : r ≠ 0) :
    getHeader (putHeader0 p) r = getHeader p r :=
  getHeader_putHeaderR_other p 0 p.num_records p.end_free r h

theorem slottedSlide_block_size (p : SlottedPage) (start endo : Nat) :
    (slottedSlide p start endo).block_size = p.block_size := by
  by_cases hne : endo = start
  · unfold slottedSlide; rw [if_pos hne]
  · rw [slottedSlide_eq p start endo hne]
    exact slideFixUpTo_block_size _ _ _ _

theorem slottedSlide_num_records (p : SlottedPage) (start endo : Nat) :
    (slottedSlide p start endo).num_records = p.num_records := by
  by_cases hne : endo = start
  · unfold slottedSlide; rw [if_pos hne]
  · rw [slottedSlide_eq p start endo hne]
    exact slideFixUpTo_num_records _ _ _ _

theorem slottedSlide_end_free (p : SlottedPage) (start endo : Nat) (hne : endo ≠ start) :
    (slottedSlide p start endo).end_free =
      ((p.end_free : Int) + ((endo : Int) - (start : Int))).toNat := by
  rw [slottedSlide_eq p start endo hne]
  rfl

/-- Headers after `_slide`: every record slot `1..num_records` holds its
fixup image, provided the copied region stays above the header directory and
the stored values stay 16-bit. -/
theorem slottedSlide_header (p : SlottedPage) (start endo r : Nat)
    (hr1 : 1 ≤ r) (hrN : r ≤ p.num_records)
    (hb : 4 * p.num_records + 3 < p.block_size)
    (hreg : (4 * (p.num_records + 1) : Int) ≤
      (p.end_free + 1 : Int) + ((endo : Int) - (start : Int)))
    (hval : ∀ r', 1 ≤ r' → r' ≤ p.num_records → (getHeader p r').2 ≠ 0 →
      (getHeader p r').2 ≤ start → (getHeader p r').1 < 65536 ∧
      (((getHeader p r').2 : Int) + ((endo : Int) - (start : Int))).toNat < 65536) :
    getHeader (slottedSlide p start endo) r =
      fixedHdr start ((endo : Int) - (start : Int)) (getHeader p r) := by
  have hsame : ∀ r', r' ≤ p.num_records →
      getHeader { p with mem := slideMem p start endo } r' = getHeader p r' := by
    intro r' hr'
    unfold getHeader
    have e1 : getN { p with mem := slideMem p start endo } (4 * r') = getN p (4 * r') :=
      getN_congr _ p (4 * r') rfl
        (slideMem_low p start endo (4 * r') (by left; push_cast; omega))
        (slideMem_low p start endo (4 * r' + 1) (by left; push_cast; omega))
    have e2 : getN { p with mem := slideMem p start endo } (4 * r' + 2) = getN p (4 * r' + 2) :=
      getN_congr _ p (4 * r' + 2) rfl
        (slideMem_low p start endo (4 * r' + 2) (by left; push_cast; omega))
        (slideMem_low p start endo (4 * r' + 2 + 1) (by left; push_cast; omega))
    rw [e1, e2]
  by_cases hne : endo = start
  · subst hne
    unfold slottedSlide
    rw [if_pos rfl]
    unfold fixedHdr
    split
    · simp
    · rfl
  · rw [slottedSlide_eq p start endo hne]
    rw [getHeader_putHeader0 _ _ (by omega)]
    show getHeader (slideFixUpTo start ((endo : Int) - (start : Int))
        { p with mem := slideMem p start endo } p.num_records) r = _
    rw [slideFixUpTo_header start _ _ p.num_records (by exact hb)
      (fun r' h1 h2 => by rw [hsame r' h2]; exact hval r' h1 h2) r hr1 hrN]
    rw [hsame r hrN]

theorem putHeader0_mem_ne (p : SlottedPage) (j : Nat) (h : 4 ≤ j) :
    (putHeader0 p).mem j = p.mem j :=
  putHeaderR_mem_ne p 0 p.num_records p.end_free j (by omega)

theorem slottedSlide_mem (p : SlottedPage) (start endo j : Nat)
    (hj : 4 * (p.num_records + 1) ≤ j) :
    (slottedSlide p start endo).mem j = slideMem p start endo j := by
  by_cases hne : endo = start
  · subst hne
    unfold slottedSlide
    rw [if_pos rfl]
    unfold slideMem
    split
    · simp
    · rfl
  · rw [slottedSlide_eq p start endo hne]
    rw [putHeader0_mem_ne _ _ (by omega)]
    show (slideFixUpTo start ((endo : Int) - (start : Int))
      { p with mem := slideMem p start endo } p.num_records).mem j = _
    rw [slideFixUpTo_mem_frame _ _ _ _ _ (by omega)]

theorem memGetN_zero (bs i : Nat) : memGetN (fun _ => 0) bs i = 0 := by
  simp [memGetN]

theorem getHeader_empty (bs r : Nat) (h : 1 ≤ r) :
    getHeader (emptySlottedPage bs) r = (0, 0) := by
  unfold emptySlottedPage
  rw [getHeader_putHeader0 _ _ (by omega)]
  unfold getHeader
  rw [getN_eq_memGetN, getN_eq_memGetN]
  show (memGetN (fun _ => 0) bs (4 * r), memGetN (fun _ => 0) bs (4 * r + 2)) = (0, 0)
  rw [memGetN_zero, memGetN_zero]

theorem slottedAdd_ok_spec (p : SlottedPage) (d : List Nat)
    (hbs : p.block_size ≤ 65535) (hef : p.end_free < p.block_size)
    (hE : d.length + 4 * p.num_records + 12 ≤ p.end_free) :
    (slottedAdd p d).isOk = true ∧
    ∀ q rid, slottedAdd p d = .ok (q, rid) →
      rid = p.num_records + 1 ∧ q.num_records = p.num_records + 1 ∧
      q.end_free = p.end_free - d.length ∧
      slottedGet q (p.num_records + 1) = some d := by
  have hroom : hasRoom p (d.length + 4) = true := by
    simp only [hasRoom, decide_eq_true_eq]
    push_cast
    omega
  constructor
  · rw [slottedAdd, if_neg (by simp [hroom])]
    rfl
  · intro q rid heq
    rw [slottedAdd, if_neg (by simp [hroom])] at heq
    simp only [Except.ok.injEq, Prod.mk.injEq] at heq
    obtain ⟨hq, hr⟩ := heq
    subst hr
    refine ⟨rfl, ?_, ?_, ?_⟩
    · rw [← hq]
      rfl
    · rw [← hq]
      rfl
    · set base := putHeaderR (putHeader0 { p with
        num_records := p.num_records + 1, end_free := p.end_free - d.length })
        (p.num_records + 1) d.length (p.end_free - d.length + 1) with hbase
      rw [← hq]
      have hfr : ∀ j, j < 4 * (p.num_records + 1) + 4 →
          writeBytes base.mem (p.end_free - d.length + 1) d j = base.mem j := by
        intro j hjj
        exact writeBytes_ne d base.mem _ j (by omega)
      have hhdr : getHeader { base with
          mem := writeBytes base.mem (p.end_free - d.length + 1) d } (p.num_records + 1) =
          (d.length, p.end_free - d.length + 1) := by
        unfold getHeader
        have e1 : getN { base with mem := writeBytes base.mem (p.end_free - d.length + 1) d }
            (4 * (p.num_records + 1)) = getN base (4 * (p.num_records + 1)) :=
          getN_congr _ base _ rfl (hfr _ (by omega)) (hfr _ (by omega))
        have e2 : getN { base with mem := writeBytes base.mem (p.end_free - d.length + 1) d }
            (4 * (p.num_records + 1) + 2) = getN base (4 * (p.num_records + 1) + 2) :=
          getN_congr _ base _ rfl (hfr _ (by omega)) (hfr _ (by omega))
        rw [e1, e2]
        exact getHeader_putHeaderR_self (putHeader0 { p with
            num_records := p.num_records + 1, end_free := p.end_free - d.length })
          (p.num_records + 1) d.length (p.end_free - d.length + 1)
          (by show 4 * (p.num_records + 1) + 3 < p.block_size; omega)
          (by omega) (by omega)
      unfold slottedGet
      rw [hhdr]
      simp only
      rw [if_neg (by omega)]
      congr 1
      show readSlice (writeBytes base.mem (p.end_free - d.length + 1) d)
        (p.end_free - d.length + 1) d.length p.block_size = d
      exact readSlice_writeBytes d base.mem _ _ (by omega)

/-- Claim C5 (amended): `add(data)` raises `NoRoom` exactly when
`len(data) + 4` exceeds `end_free - 4*(num_records + 2)` (the code's
`_has_room` bound, 5 bytes tighter than the claimed
`E - (4*(N+1) - 1)`); otherwise it increments `num_records`, stores the
payload at the top of the free region (so `get` of the new id returns
exactly the payload) and returns the new record id `N + 1`. -/
theorem C5_add_amended (p : SlottedPage) (d : List Nat)
    (hbs : p.block_size ≤ 65535) (hef : p.end_free < p.block_size) :
    if (d.length : Int) + 4 ≤ (p.end_free : Int) - 4 * ((p.num_records : Int) + 2) then
      (slottedAdd p d).isOk = true ∧
      ∀ q rid, slottedAdd p d = .ok (q, rid) →
        rid = p.num_records + 1 ∧ q.num_records = p.num_records + 1 ∧
        q.end_free = p.end_free - d.length ∧
        slottedGet q (p.num_records + 1) = some d
    else slottedAdd p d = .error .noRoom := by
  split
  case isFalse hcond =>
    rw [slottedAdd, if_pos]
    simp only [hasRoom, Bool.not_eq_true]
    rw [decide_eq_false_iff_not]
    push_cast
    omega
  case isTrue hcond =>
    exact slottedAdd_ok_spec p d hbs hef (by omega)

/-- Witness for the amended C5: adding a 19-byte payload to a fresh 32-byte
page succeeds with id 1 and reads back. -/
theorem C5_add_amended_witness :
    (slottedAdd (emptySlottedPage 32) (List.replicate 19 7)).isOk = true ∧
    slottedGet ((slottedAdd (emptySlottedPage 32)
      (List.replicate 19 7)).toOption.getD (emptySlottedPage 32, 0)).1 1 =
      some (List.replicate 19 7) := by
  have h := C5_add_amended (emptySlottedPage 32) (List.replicate 19 7) (by decide) (by decide)
  rw [if_pos (by decide)] at h
  exact ⟨h.1, (h.2 ((slottedAdd (emptySlottedPage 32)
    (List.replicate 19 7)).toOption.getD (emptySlottedPage 32, 0)).1 1 rfl).2.2.2⟩

/-- Claim C10 (amended): `get` never raises; it returns `None` for every
record id that has been deleted (the tombstone reads size 0, loc 0), and on
a freshly initialised page every positive record id reads a zeroed header
slot and returns `None`.  (As the counterexample shows, an unallocated id
whose header slot overlaps stored record bytes may instead return a byte
slice, so the original "every never-allocated id" wording does not hold.) -/
theorem C10_get_amended :
    (∀ p r, SPWF p → 1 ≤ r → r ≤ p.num_records →
      slottedGet (slottedDelete p r) r = none) ∧
    (∀ bs r, 1 ≤ r → slottedGet (emptySlottedPage bs) r = none) := by
  constructor
  · intro p r hwf h1 hN
    obtain ⟨hbs, hef, hdir, hmir, hslots, hdisj⟩ := hwf
    show slottedGet (slottedSlide (putHeaderR p r 0 0) (getHeader p r).2
      ((getHeader p r).2 + (getHeader p r).1)) r = none
    have hp1r : getHeader (putHeaderR p r 0 0) r = (0, 0) :=
      getHeader_putHeaderR_self p r 0 0 (by omega) (by omega) (by omega)
    have hhdr := slottedSlide_header (putHeaderR p r 0 0) (getHeader p r).2
      ((getHeader p r).2 + (getHeader p r).1) r h1
      (by simp only [putHeaderR_num_records]; exact hN)
      (by simp only [putHeaderR_num_records, putHeaderR_block_size]; omega)
      (by simp only [putHeaderR_num_records, putHeaderR_end_free]; push_cast; omega)
      ?hval
    case hval =>
      intro r' hr1 hrN hne hle
      simp only [putHeaderR_num_records] at hrN
      by_cases hrr : r' = r
      · subst hrr
        rw [hp1r] at hne
        simp at hne
      · rw [getHeader_putHeaderR_other p r 0 0 r' hrr] at hne hle ⊢
        rcases hslots r' (by omega) hr1 with hts | hlive
        · exact absurd hts.1 hne
        · refine ⟨by omega, ?_⟩
          rcases hslots r (by omega) h1 with hts2 | hlive2
          · rw [hts2.1] at hle
            omega
          · push_cast
            omega
    have hfinal : getHeader (slottedSlide (putHeaderR p r 0 0) (getHeader p r).2
        ((getHeader p r).2 + (getHeader p r).1)) r = (0, 0) := by
      rw [hhdr, hp1r]
      unfold fixedHdr
      rw [if_neg (by simp)]
    simp [slottedGet, hfinal]
  · intro bs r h1
    simp [slottedGet, getHeader_empty bs r h1]

/-- Witness for the amended C10: deleting record 1 from a one-record page
makes `get(1)` return `None`, and `get(3)` on a fresh 16-byte page is
`None`. -/
theorem C10_get_amended_witness :
    slottedGet (slottedDelete ((slottedAdd (emptySlottedPage 32)
      [65, 65, 65, 65]).toOption.getD (emptySlottedPage 32, 0)).1 1) 1 = none ∧
    slottedGet (emptySlottedPage 16) 3 = none :=
  ⟨C10_get_amended.1 ((slottedAdd (emptySlottedPage 32)
      [65, 65, 65, 65]).toOption.getD (emptySlottedPage 32, 0)).1 1
    (by decide) (by decide) (by decide),
   C10_get_amended.2 16 3 (by decide)⟩

/-- Claim C4 (amended): `HeapTable.insert` (`_append`) does confine the
page-full error -- when the last block raises `NoRoom` it allocates a fresh
page and retries, succeeding whenever the marshalled row fits an empty page
(`len + 13 <= block_size`); but `HeapTable.update` wraps `SlottedPage.put`
in no handler, so when the re-marshalled row is larger than the stored
record and the extra bytes exceed the page's `_has_room` bound, the
`NoRoom` error propagates to `update`'s caller. -/
theorem C4_noroom_amended :
    (∀ (lastBlock : SlottedPage) (bs : Nat) (d : List Nat),
       bs ≤ 65535 → d.length + 13 ≤ bs →
       (heapTableAppend lastBlock bs d).isOk = true) ∧
    (∀ (schema : Schema) (block : SlottedPage) (rid : Nat) (newvals : Row) (data : List Nat),
       slottedGet block rid = some data →
       (getHeader block rid).1 <
         (marshalRow schema (overlayRow (unmarshalRow schema data) newvals)).length →
       ((block.end_free : Int) - 4 * ((block.num_records : Int) + 2) <
         ((marshalRow schema (overlayRow (unmarshalRow schema data) newvals)).length : Int) -
           ((getHeader block rid).1 : Int)) →
       heapTableUpdate schema block rid newvals = .error .noRoom) := by
  constructor
  · intro lastBlock bs d hbs hfit
    rcases h : slottedAdd lastBlock d with e | pr
    · simp only [heapTableAppend, h]
      exact (slottedAdd_ok_spec (emptySlottedPage bs) d hbs
        (by show bs - 1 < bs; omega)
        (by show d.length + 4 * 0 + 12 ≤ bs - 1; omega)).1
    · simp only [heapTableAppend, h]
      rfl
  · intro schema block rid newvals data hget hbig hfull
    simp only [heapTableUpdate, hget]
    simp only [slottedPut]
    rw [if_pos hbig, if_pos]
    simp only [hasRoom, Bool.not_eq_true]
    rw [decide_eq_false_iff_not]
    omega

/-- Witness for the amended C4: appending a 19-byte row recovers onto a
fresh page, and updating the full one-TEXT-column page to a longer text
propagates `NoRoom`. -/
theorem C4_noroom_amended_witness :
    (heapTableAppend (emptySlottedPage 32) 32 (List.replicate 19 7)).isOk = true ∧
    heapTableUpdate [("b", ColType.TEXT)]
      ((slottedAdd (emptySlottedPage 32)
        (marshalRow [("b", ColType.TEXT)] [("b", Value.text (List.replicate 17 66))])).toOption.getD
        (emptySlottedPage 32, 0)).1 1
      [("b", Value.text (List.replicate 18 67))] = .error .noRoom :=
  ⟨C4_noroom_amended.1 (emptySlottedPage 32) 32 (List.replicate 19 7) (by decide) (by decide),
   C4_noroom_amended.2 [("b", ColType.TEXT)]
     ((slottedAdd (emptySlottedPage 32)
       (marshalRow [("b", ColType.TEXT)] [("b", Value.text (List.replicate 17 66))])).toOption.getD
       (emptySlottedPage 32, 0)).1 1
     [("b", Value.text (List.replicate 18 67))]
     (marshalRow [("b", ColType.TEXT)] [("b", Value.text (List.replicate 17 66))])
     (by decide) (by decide) (by decide)⟩

/-- Claim C9: the claim says every page-file variant returns the dirty copy
during a coalesced write.  `HeapFile.get` does (third conjunct: a queued
dirty block is returned as-is), but `FixedHeapFile.get` re-parses the
on-disk bytes unconditionally -- its result does not depend on the write
queue or the lock at all (first conjunct) -- so with `write_lock = 1` and a
dirty copy of block 1 queued whose record 0 was overwritten to
`[9, 9, 9, 9]`, `get(1)` still reads the stale `[1, 2, 3, 4]` from disk
(second conjunct), contradicting the claim for the fixed-length variant
that backs the hash index's bucket address table. -/
theorem C9_fixed_get_ignores_dirty :
    (∀ (f : FixedHeapFileSt) (q : List (Nat × FixedPage)) (lock : Int) (bid : Nat),
       fixedHeapFileGet { f with write_queue := q, write_lock := lock } bid =
         fixedHeapFileGet f bid) ∧
    (fixedGet (fixedHeapFileGet
      { record_size := 4, block_size := 32,
        disk := [(1, ((fixedAdd (fixedNew 4 32) [1, 2, 3, 4]).toOption.getD
          (fixedNew 4 32, 0)).1.mem)],
        write_queue := [(1, fixedPut ((fixedAdd (fixedNew 4 32)
          [1, 2, 3, 4]).toOption.getD (fixedNew 4 32, 0)).1 0 [9, 9, 9, 9])],
        write_lock := 1, last := 1 } 1) 0 = some [1, 2, 3, 4] ∧
     fixedGet (fixedPut ((fixedAdd (fixedNew 4 32) [1, 2, 3, 4]).toOption.getD
       (fixedNew 4 32, 0)).1 0 [9, 9, 9, 9]) 0 = some [9, 9, 9, 9]) ∧
    heapFileGet
      { block_size := 32, disk := [(1, (emptySlottedPage 32).mem)],
        write_queue := [(1, ((slottedAdd (emptySlottedPage 32) [5]).toOption.getD
          (emptySlottedPage 32, 0)).1)],
        write_lock := 1, last := 1 } 1 =
      ((slottedAdd (emptySlottedPage 32) [5]).toOption.getD (emptySlottedPage 32, 0)).1 :=
  ⟨fun _ _ _ _ => rfl, ⟨by decide, by decide⟩, rfl⟩


theorem slot_bytes_disjoint (dl r r' k : Nat) (hne : r ≠ r') (hk : k < dl) :
    r * dl + 2 + k < r' * dl + 2 ∨ r' * dl + 2 + dl ≤ r * dl + 2 + k := by
  rcases Nat.lt_or_ge r r' with h | h
  · left
    have h1 : (r + 1) * dl ≤ r' * dl := Nat.mul_le_mul_right dl h
    have h2 : (r + 1) * dl = r * dl + dl := by ring
    omega
  · right
    have hgt : r' < r := by omega
    have h1 : (r' + 1) * dl ≤ r * dl := Nat.mul_le_mul_right dl hgt
    have h2 : (r' + 1) * dl = r' * dl + dl := by ring
    omega

theorem fixedGet_upd (p : FixedPage) (m : Mem) (fl : List Nat) (r : Nat)
    (hfl : fl.contains r = p.free_list.contains r)
    (hmem : ∀ k, k < p.data_length →
      m (r * p.data_length + 2 + k) = p.mem (r * p.data_length + 2 + k)) :
    fixedGet { p with mem := m, free_list := fl } r = fixedGet p r := by
  unfold fixedGet fixedOffset
  simp only
  rw [hfl]
  split
  · rfl
  · congr 1
    exact readSlice_congr _ _ _ _ _ (fun k hk _ => hmem k hk)

theorem fixedPut_frame (p : FixedPage) (r r' : Nat) (d : List Nat)
    (hne : r ≠ r') (hlen : d.length = p.data_length) :
    fixedGet (fixedPut p r' d) r = fixedGet p r := by
  unfold fixedPut
  apply fixedGet_upd
  · rfl
  · intro k hk
    apply writeBytes_ne
    rw [hlen]
    exact slot_bytes_disjoint p.data_length r r' k hne hk

theorem fixedDelete_frame (p : FixedPage) (r r' : Nat)
    (hne : r ≠ r') (hdl2 : 2 ≤ p.data_length) :
    fixedGet (fixedDelete p r') r = fixedGet p r := by
  unfold fixedDelete
  by_cases hc : p.free_list.contains r' = true
  · rw [if_pos hc]
  · rw [if_neg hc]
    apply fixedGet_upd
    · simp only [List.contains_cons]
      rw [show (r == r') = false from by simp [hne]]
      simp
    · intro k hk
      have hdisj := slot_bytes_disjoint p.data_length r r' k hne hk
      show writeN2 (writeN2 p.mem (r' * p.data_length + 2) (memGetN p.mem p.block_size 0)) 0 r' _ = _
      rw [writeN2_ne _ _ _ _ (by omega) (by omega),
          writeN2_ne _ _ _ _ (by omega) (by omega)]

theorem fixedAdd_frame (p : FixedPage) (d : List Nat) (r : Nat)
    (hlen : d.length = p.data_length)
    (hr : p.free_list.contains r = false)
    (hhead : p.free_list.contains (memGetN p.mem p.block_size 0) = true) :
    ∀ q rid, fixedAdd p d = .ok (q, rid) → fixedGet q r = fixedGet p r := by
  intro q rid heq
  have hne : r ≠ memGetN p.mem p.block_size 0 := by
    intro hcontra
    rw [← hcontra] at hhead
    rw [hhead] at hr
    exact Bool.noConfusion hr
  simp only [fixedAdd, fixedOffset] at heq
  split at heq
  · exact absurd heq (by simp)
  · simp only [Except.ok.injEq, Prod.mk.injEq] at heq
    obtain ⟨hq, hrid⟩ := heq
    subst hq
    apply fixedGet_upd
    · rw [hr]
      by_cases hmem : r ∈ p.free_list.erase (memGetN p.mem p.block_size 0)
      · exfalso
        have h2 := List.mem_of_mem_erase hmem
        have h3 : p.free_list.contains r = true := by simp [h2]
        rw [h3] at hr
        exact Bool.noConfusion hr
      · simp [hmem]
    · intro k hk
      have hdisj := slot_bytes_disjoint p.data_length r (memGetN p.mem p.block_size 0) k hne hk
      show writeN2 (writeBytes p.mem _ d) 0 _ _ = _
      rw [writeN2_ne _ _ _ _ (by omega) (by omega)]
      apply writeBytes_ne
      rw [hlen]
      exact hdisj

theorem readSlice_shifted (m1 m2 : Mem) (loc1 loc2 size bs : Nat)
    (h1 : loc1 + size ≤ bs) (h2 : loc2 + size ≤ bs)
    (h : ∀ k, k < size → m1 (loc1 + k) = m2 (loc2 + k)) :
    readSlice m1 loc1 size bs = readSlice m2 loc2 size bs := by
  unfold readSlice
  have e1 : min size (bs - loc1) = size := by omega
  have e2 : min size (bs - loc2) = size := by omega
  rw [e1, e2]
  apply List.map_congr_left
  intro k hk
  simp only [List.mem_range] at hk
  exact h k hk

theorem slottedGet_ext (q p : SlottedPage) (r : Nat)
    (hbs : q.block_size = p.block_size)
    (hh : getHeader q r = getHeader p r)
    (hmem : ∀ k, k < (getHeader p r).1 →
      q.mem ((getHeader p r).2 + k) = p.mem ((getHeader p r).2 + k)) :
    slottedGet q r = slottedGet p r := by
  simp only [slottedGet]
  rw [hh, hbs]
  split
  · rfl
  · congr 1
    apply readSlice_congr
    intro k hk _
    exact hmem k hk

theorem slottedGet_shift (q p : SlottedPage) (r loc2 : Nat)
    (hbs : q.block_size = p.block_size)
    (hh : getHeader q r = ((getHeader p r).1, loc2))
    (hl2 : loc2 ≠ 0) (hl1 : (getHeader p r).2 ≠ 0)
    (hfit2 : loc2 + (getHeader p r).1 ≤ p.block_size)
    (hfit1 : (getHeader p r).2 + (getHeader p r).1 ≤ p.block_size)
    (hmem : ∀ k, k < (getHeader p r).1 →
      q.mem (loc2 + k) = p.mem ((getHeader p r).2 + k)) :
    slottedGet q r = slottedGet p r := by
  simp only [slottedGet]
  rw [hh, hbs]
  show (if loc2 = 0 then none
      else some (readSlice q.mem loc2 (getHeader p r).1 p.block_size)) = _
  rw [if_neg hl2, if_neg hl1]
  congr 1
  exact readSlice_shifted _ _ _ _ _ _ hfit2 hfit1 hmem

theorem slottedAdd_frame (p : SlottedPage) (d : List Nat) (r : Nat) (hwf : SPWF p)
    (hr1 : 1 ≤ r) (hrN : r ≤ p.num_records) :
    ∀ q rid, slottedAdd p d = .ok (q, rid) → slottedGet q r = slottedGet p r := by
  obtain ⟨hbs, hef, hhdr4, h0, hlive, hdisj⟩ := hwf
  intro q rid heq
  unfold slottedAdd at heq
  split at heq
  · exact absurd heq (by simp)
  · rename_i hroom
    rw [not_not] at hroom
    have hE : d.length + 4 * p.num_records + 12 ≤ p.end_free := by
      simp only [hasRoom, decide_eq_true_eq] at hroom
      push_cast at hroom
      omega
    simp only [Except.ok.injEq, Prod.mk.injEq] at heq
    obtain ⟨hq, hrid⟩ := heq
    subst hq
    set pA : SlottedPage :=
      { p with
        num_records := p.num_records + 1
        end_free := p.end_free - d.length } with hpA
    set p2 : SlottedPage :=
      putHeaderR (putHeader0 pA) (p.num_records + 1) d.length (p.end_free - d.length + 1)
      with hp2
    have hmemj : ∀ j, 4 ≤ j → j < 4 * p.num_records + 4 →
        writeBytes p2.mem (p.end_free - d.length + 1) d j = p.mem j := by
      intro j h4 hj
      rw [writeBytes_ne _ _ _ _ (Or.inl (by omega)), hp2,
        putHeaderR_mem_ne _ _ _ _ _ (by omega), putHeader0_mem_ne _ _ h4, hpA]
    have hdata : ∀ j, p.end_free + 1 ≤ j →
        writeBytes p2.mem (p.end_free - d.length + 1) d j = p.mem j := by
      intro j hj
      rw [writeBytes_ne _ _ _ _ (Or.inr (by omega)), hp2,
        putHeaderR_mem_ne _ _ _ _ _ (by omega), putHeader0_mem_ne _ _ (by omega), hpA]
    refine slottedGet_ext _ p r rfl ?_ ?_
    · unfold getHeader
      rw [getN_congr { p2 with mem := writeBytes p2.mem (p.end_free - d.length + 1) d } p
          (4 * r) rfl (hmemj (4 * r) (by omega) (by omega))
          (hmemj (4 * r + 1) (by omega) (by omega)),
        getN_congr { p2 with mem := writeBytes p2.mem (p.end_free - d.length + 1) d } p
          (4 * r + 2) rfl (hmemj (4 * r + 2) (by omega) (by omega))
          (hmemj (4 * r + 3) (by omega) (by omega))]
    · intro k hk
      rcases hlive r (by omega) hr1 with htomb | hlv
      · rw [htomb.2] at hk
        exact absurd hk (by omega)
      · exact hdata _ (by omega)

theorem slottedDelete_frame (p : SlottedPage) (r r' : Nat) (hwf : SPWF p)
    (hr1 : 1 ≤ r) (hrN : r ≤ p.num_records)
    (hr'1 : 1 ≤ r') (hr'N : r' ≤ p.num_records) (hne : r ≠ r') :
    slottedGet (slottedDelete p r') r = slottedGet p r := by
  obtain ⟨hbs, hef, hhdr4, h0, hlive, hdisj⟩ := hwf
  simp only [slottedDelete]
  set sz2 := (getHeader p r').1 with hsz2
  set lc2 := (getHeader p r').2 with hlc2
  set p1 : SlottedPage := putHeaderR p r' 0 0 with hp1
  have he1 : p1.end_free = p.end_free := rfl
  have hn1 : p1.num_records = p.num_records := rfl
  have hb1 : p1.block_size = p.block_size := rfl
  have hh1 : ∀ r'', r'' ≠ r' → getHeader p1 r'' = getHeader p r'' := by
    intro r'' h
    rw [hp1]
    exact getHeader_putHeaderR_other p r' 0 0 r'' h
  have hh1d : getHeader p1 r' = (0, 0) := by
    rw [hp1]
    exact getHeader_putHeaderR_self p r' 0 0 (by omega) (by omega) (by omega)
  have hm1 : ∀ j, p.end_free + 1 ≤ j → p1.mem j = p.mem j := by
    intro j hj
    rw [hp1]
    exact putHeaderR_mem_ne p r' 0 0 j (Or.inr (by omega))
  have hm : ∀ j, p.end_free + 1 ≤ j →
      (slottedSlide p1 lc2 (lc2 + sz2)).mem j = slideMem p1 lc2 (lc2 + sz2) j := by
    intro j hj
    exact slottedSlide_mem p1 _ _ j (by omega)
  have hslh : getHeader (slottedSlide p1 lc2 (lc2 + sz2)) r
      = fixedHdr lc2 (((lc2 + sz2 : Nat) : Int) - (lc2 : Int)) (getHeader p r) := by
    rw [← hh1 r hne]
    apply slottedSlide_header p1 lc2 (lc2 + sz2) r hr1 (by omega) (by omega) (by omega)
    intro r'' h1 h2 hnz hle
    by_cases he : r'' = r'
    · rw [he, hh1d] at hnz
      simp at hnz
    · rw [hh1 r'' he] at hnz hle ⊢
      rcases hlive r'' (by omega) h1 with ht | hl
      · exact absurd ht.1 hnz
      · refine ⟨by omega, ?_⟩
        rcases hlive r' (by omega) hr'1 with ht' | hl'
        · omega
        · omega
  rcases hlive r (by omega) hr1 with htombr | hliver
  · refine slottedGet_ext _ p r ((slottedSlide_block_size p1 lc2 (lc2 + sz2)).trans hb1) ?_ ?_
    · rw [hslh]
      unfold fixedHdr
      rw [if_neg]
      simp [htombr.1]
    · intro k hk
      rw [htombr.2] at hk
      exact absurd hk (by omega)
  · rcases hlive r' (by omega) hr'1 with htomb' | hlive'
    · have hlc0 : lc2 = 0 := hlc2.trans htomb'.1
      have hsz0 : sz2 = 0 := hsz2.trans htomb'.2
      rw [hlc0, hsz0]
      have heq0 : slottedSlide p1 0 (0 + 0) = p1 := by
        unfold slottedSlide
        rw [if_pos (by norm_num)]
      rw [heq0]
      refine slottedGet_ext p1 p r hb1 (hh1 r hne) ?_
      intro k hk
      exact hm1 _ (by omega)
    · have hsep := hdisj r (by omega) r' (by omega)
      unfold disjointSlots at hsep
      rcases hsep with h | h | h | h | h | h | h
      · omega
      · omega
      · exact absurd h hne
      · omega
      · omega
      · -- record r lies below the deleted record: it slides right by sz2
        refine slottedGet_shift _ p r ((getHeader p r).2 + sz2)
          ((slottedSlide_block_size p1 lc2 (lc2 + sz2)).trans hb1) ?_
          (by omega) (by omega) (by omega) (by omega) ?_
        · rw [hslh]
          unfold fixedHdr
          rw [if_pos ⟨by omega, by omega⟩]
          exact congrArg (Prod.mk (getHeader p r).1) (by omega)
        · intro k hk
          rw [hm _ (by omega),
            slideMem_copy p1 lc2 (lc2 + sz2) _ (by omega) (by omega),
            show ((((getHeader p r).2 + sz2 + k : Nat) : Int)
              - (((lc2 + sz2 : Nat) : Int) - (lc2 : Int))).toNat
              = (getHeader p r).2 + k from by omega,
            hm1 _ (by omega)]
      · -- record r lies above the deleted record: untouched
        refine slottedGet_ext _ p r
          ((slottedSlide_block_size p1 lc2 (lc2 + sz2)).trans hb1) ?_ ?_
        · rw [hslh]
          unfold fixedHdr
          split
          · rename_i hcond
            have h2 : ((((getHeader p r).2 : Int)) + (((lc2 + sz2 : Nat) : Int) - (lc2 : Int))).toNat
                = (getHeader p r).2 := by omega
            rw [h2]
          · rfl
        · intro k hk
          rw [hm _ (by omega),
            slideMem_low p1 lc2 (lc2 + sz2) _ (Or.inr (by omega)),
            hm1 _ (by omega)]

theorem slottedPut_frame (p : SlottedPage) (r r' : Nat) (d : List Nat) (hwf : SPWF p)
    (hr1 : 1 ≤ r) (hrN : r ≤ p.num_records)
    (hr'1 : 1 ≤ r') (hr'N : r' ≤ p.num_records) (hne : r ≠ r')
    (hnz' : (getHeader p r').2 ≠ 0) (hsz' : (getHeader p r').1 ≠ 0) :
    ∀ q, slottedPut p r' d = .ok q → slottedGet q r = slottedGet p r := by
  obtain ⟨hbs, hef, hhdr4, h0, hlive, hdisj⟩ := hwf
  have hlv' : p.end_free + 1 ≤ (getHeader p r').2 ∧
      (getHeader p r').2 + (getHeader p r').1 ≤ p.block_size := by
    rcases hlive r' (by omega) hr'1 with ht | hl
    · exact absurd ht.1 hnz'
    · exact hl
  intro q heq
  simp only [slottedPut] at heq
  split at heq
  · split at heq
    · exact absurd heq (by simp)
    · rename_i hlt hroom
      rw [not_not] at hroom
      have hX : d.length - (getHeader p r').1 + 4 * p.num_records + 8 ≤ p.end_free := by
        simp only [hasRoom, decide_eq_true_eq] at hroom
        omega
      simp only [Except.ok.injEq] at heq
      subst heq
      set sz2 := (getHeader p r').1 with hsz2
      set lc2 := (getHeader p r').2 with hlc2
      set P1 : SlottedPage := slottedSlide p lc2 (lc2 - (d.length - sz2)) with hP1
      set P2 : SlottedPage := { P1 with mem := writeBytes P1.mem (lc2 - (d.length - sz2)) d }
        with hP2
      have hb1 : P1.block_size = p.block_size := by
        rw [hP1]; exact slottedSlide_block_size p _ _
      have hn1 : P1.num_records = p.num_records := by
        rw [hP1]; exact slottedSlide_num_records p _ _
      have hslh : getHeader P1 r
          = fixedHdr lc2 (((lc2 - (d.length - sz2) : Nat) : Int) - (lc2 : Int))
            (getHeader p r) := by
        rw [hP1]
        apply slottedSlide_header p lc2 _ r hr1 hrN (by omega) (by omega)
        intro r3 h3 h4 hnz3 hle3
        rcases hlive r3 (by omega) h3 with ht | hl
        · exact absurd ht.1 hnz3
        · exact ⟨by omega, by omega⟩
      have hm1 : ∀ j, 4 * (p.num_records + 1) ≤ j →
          P1.mem j = slideMem p lc2 (lc2 - (d.length - sz2)) j := by
        intro j hj
        rw [hP1]
        exact slottedSlide_mem p _ _ j hj
      have hqm : ∀ j, p.end_free + 1 - (d.length - sz2) ≤ j → j < lc2 - (d.length - sz2) →
          (putHeaderR P2 r' d.length (getHeader P2 r').2).mem j
            = p.mem (j + (d.length - sz2)) := by
        intro j hj1 hj2
        rw [putHeaderR_mem_ne _ _ _ _ _ (Or.inr (by omega)), hP2]
        show writeBytes P1.mem (lc2 - (d.length - sz2)) d j = _
        rw [writeBytes_ne _ _ _ _ (Or.inl hj2), hm1 j (by omega),
          slideMem_copy p lc2 (lc2 - (d.length - sz2)) j (by omega) (by omega)]
        congr 1
        omega
      have hqm2 : ∀ j, lc2 + sz2 ≤ j →
          (putHeaderR P2 r' d.length (getHeader P2 r').2).mem j = p.mem j := by
        intro j hj
        rw [putHeaderR_mem_ne _ _ _ _ _ (Or.inr (by omega)), hP2]
        show writeBytes P1.mem (lc2 - (d.length - sz2)) d j = _
        rw [writeBytes_ne _ _ _ _ (Or.inr (by omega)), hm1 j (by omega)]
        exact slideMem_low p _ _ j (Or.inr (by omega))
      have hqh : getHeader (putHeaderR P2 r' d.length (getHeader P2 r').2) r
          = fixedHdr lc2 (((lc2 - (d.length - sz2) : Nat) : Int) - (lc2 : Int))
            (getHeader p r) := by
        rw [getHeader_putHeaderR_other _ _ _ _ _ hne]
        have hPP : getHeader P2 r = getHeader P1 r := by
          rw [hP2]
          unfold getHeader
          rw [getN_congr { P1 with mem := writeBytes P1.mem (lc2 - (d.length - sz2)) d } P1
              (4 * r) rfl
              (writeBytes_ne d P1.mem (lc2 - (d.length - sz2)) (4 * r) (Or.inl (by omega)))
              (writeBytes_ne d P1.mem (lc2 - (d.length - sz2)) (4 * r + 1) (Or.inl (by omega))),
            getN_congr { P1 with mem := writeBytes P1.mem (lc2 - (d.length - sz2)) d } P1
              (4 * r + 2) rfl
              (writeBytes_ne d P1.mem (lc2 - (d.length - sz2)) (4 * r + 2) (Or.inl (by omega)))
              (writeBytes_ne d P1.mem (lc2 - (d.length - sz2)) (4 * r + 3) (Or.inl (by omega)))]
        rw [hPP, hslh]
      have hbsq : (putHeaderR P2 r' d.length (getHeader P2 r').2).block_size = p.block_size := by
        rw [putHeaderR_block_size, hP2]
        exact hb1
      rcases hlive r (by omega) hr1 with htr | hlr
      · refine slottedGet_ext _ p r hbsq ?_ ?_
        · rw [hqh]
          unfold fixedHdr
          rw [if_neg]
          simp [htr.1]
        · intro k hk
          rw [htr.2] at hk
          exact absurd hk (by omega)
      · have hd := hdisj r (by omega) r' (by omega)
        unfold disjointSlots at hd
        rcases hd with h | h | h | h | h | h | h
        · omega
        · omega
        · exact absurd h hne
        · omega
        · omega
        · -- r sits below r' in the block: it slides left by `extra`
          refine slottedGet_shift _ p r ((getHeader p r).2 - (d.length - sz2)) hbsq ?_
            (by omega) (by omega) (by omega) (by omega) ?_
          · rw [hqh]
            unfold fixedHdr
            rw [if_pos ⟨by omega, by omega⟩]
            exact congrArg (Prod.mk (getHeader p r).1) (by omega)
          · intro k hk
            rw [hqm ((getHeader p r).2 - (d.length - sz2) + k) (by omega) (by omega)]
            congr 1
            omega
        · -- r sits above r': untouched
          refine slottedGet_ext _ p r hbsq ?_ ?_
          · rw [hqh]
            unfold fixedHdr
            split
            · rename_i hcond
              exfalso
              omega
            · rfl
          · intro k hk
            exact hqm2 _ (by omega)
  · rename_i hge
    push_neg at hge
    simp only [Except.ok.injEq] at heq
    subst heq
    set sz2 := (getHeader p r').1 with hsz2
    set lc2 := (getHeader p r').2 with hlc2
    set P1 : SlottedPage := { p with mem := writeBytes p.mem lc2 d } with hP1
    set P2 : SlottedPage := slottedSlide P1 (lc2 + d.length) (lc2 + sz2) with hP2
    have hb1 : P1.block_size = p.block_size := by rw [hP1]
    have hn1 : P1.num_records = p.num_records := by rw [hP1]
    have he1 : P1.end_free = p.end_free := by rw [hP1]
    have hP1h : ∀ r'', r'' ≤ p.num_records → getHeader P1 r'' = getHeader p r'' := by
      intro r'' h2
      rw [hP1]
      unfold getHeader
      rw [getN_congr { p with mem := writeBytes p.mem lc2 d } p (4 * r'') rfl
          (writeBytes_ne d p.mem lc2 (4 * r'') (Or.inl (by omega)))
          (writeBytes_ne d p.mem lc2 (4 * r'' + 1) (Or.inl (by omega))),
        getN_congr { p with mem := writeBytes p.mem lc2 d } p (4 * r'' + 2) rfl
          (writeBytes_ne d p.mem lc2 (4 * r'' + 2) (Or.inl (by omega)))
          (writeBytes_ne d p.mem lc2 (4 * r'' + 3) (Or.inl (by omega)))]
    have hslh : getHeader P2 r
        = fixedHdr (lc2 + d.length)
          (((lc2 + sz2 : Nat) : Int) - ((lc2 + d.length : Nat) : Int)) (getHeader p r) := by
      rw [hP2, show getHeader p r = getHeader P1 r from (hP1h r hrN).symm]
      apply slottedSlide_header P1 (lc2 + d.length) (lc2 + sz2) r hr1 (by omega) (by omega)
        (by omega)
      intro r3 h3 h4 hnz3 hle3
      rw [hP1h r3 (by omega)] at hnz3 hle3 ⊢
      rcases hlive r3 (by omega) h3 with ht | hl
      · exact absurd ht.1 hnz3
      · exact ⟨by omega, by omega⟩
    have hm1 : ∀ j, 4 * (p.num_records + 1) ≤ j →
        P2.mem j = slideMem P1 (lc2 + d.length) (lc2 + sz2) j := by
      intro j hj
      rw [hP2]
      exact slottedSlide_mem P1 _ _ j (by omega)
    have hP1mlow : ∀ j, j < lc2 → P1.mem j = p.mem j := by
      intro j hj
      rw [hP1]
      exact writeBytes_ne d p.mem lc2 j (Or.inl hj)
    have hP1m : ∀ j, lc2 + d.length ≤ j → P1.mem j = p.mem j := by
      intro j hj
      rw [hP1]
      exact writeBytes_ne d p.mem lc2 j (Or.inr (by omega))
    have hqm : ∀ j, p.end_free + 1 + (sz2 - d.length) ≤ j → j < lc2 + sz2 →
        (putHeaderR P2 r' d.length (getHeader P2 r').2).mem j
          = P1.mem (j - (sz2 - d.length)) := by
      intro j hj1 hj2
      rw [putHeaderR_mem_ne _ _ _ _ _ (Or.inr (by omega)), hm1 j (by omega),
        slideMem_copy P1 (lc2 + d.length) (lc2 + sz2) j (by omega) (by omega)]
      congr 1
      omega
    have hqm2 : ∀ j, lc2 + sz2 ≤ j →
        (putHeaderR P2 r' d.length (getHeader P2 r').2).mem j = p.mem j := by
      intro j hj
      rw [putHeaderR_mem_ne _ _ _ _ _ (Or.inr (by omega)), hm1 j (by omega),
        slideMem_low P1 _ _ j (Or.inr (by omega))]
      exact hP1m j (by omega)
    have hqh : getHeader (putHeaderR P2 r' d.length (getHeader P2 r').2) r
        = fixedHdr (lc2 + d.length)
          (((lc2 + sz2 : Nat) : Int) - ((lc2 + d.length : Nat) : Int)) (getHeader p r) := by
      rw [getHeader_putHeaderR_other _ _ _ _ _ hne, hslh]
    have hbsq : (putHeaderR P2 r' d.length (getHeader P2 r').2).block_size = p.block_size := by
      rw [putHeaderR_block_size, hP2, slottedSlide_block_size]
    rcases hlive r (by omega) hr1 with htr | hlr
    · refine slottedGet_ext _ p r hbsq ?_ ?_
      · rw [hqh]
        unfold fixedHdr
        rw [if_neg]
        simp [htr.1]
      · intro k hk
        rw [htr.2] at hk
        exact absurd hk (by omega)
    · have hd := hdisj r (by omega) r' (by omega)
      unfold disjointSlots at hd
      rcases hd with h | h | h | h | h | h | h
      · omega
      · omega
      · exact absurd h hne
      · omega
      · omega
      · -- r sits below r': it slides right by the freed slack
        refine slottedGet_shift _ p r ((getHeader p r).2 + (sz2 - d.length)) hbsq ?_
          (by omega) (by omega) (by omega) (by omega) ?_
        · rw [hqh]
          unfold fixedHdr
          rw [if_pos ⟨by omega, by omega⟩]
          exact congrArg (Prod.mk (getHeader p r).1) (by omega)
        · intro k hk
          rw [hqm ((getHeader p r).2 + (sz2 - d.length) + k) (by omega) (by omega),
            show (getHeader p r).2 + (sz2 - d.length) + k - (sz2 - d.length)
              = (getHeader p r).2 + k from by omega]
          exact hP1mlow _ (by omega)
      · -- r sits above r': untouched
        refine slottedGet_ext _ p r hbsq ?_ ?_
        · rw [hqh]
          unfold fixedHdr
          split
          · rename_i hcond
            have h2 : (((getHeader p r).2 : Int) + (((lc2 + sz2 : Nat) : Int)
                - ((lc2 + d.length : Nat) : Int))).toNat = (getHeader p r).2 := by omega
            rw [h2]
          · rfl
        · intro k hk
          exact hqm2 _ (by omega)

/-- Claim C8: the claim says mutating one record via `add`, `put` or
`delete` leaves every other record's `get` unchanged.  As literally stated
this is false for `SlottedPage.put` (see the counterexample theorem: growing
a zero-size record slides the headers of records sharing its location
without moving their bytes).  Amended frame property: on a well-formed
slotted page, `add` and `delete` preserve `get` of every other allocated
record, and `put` does too provided the record being written is live with a
nonzero stored size; on a `FixedLengthRecordBlock`, `add` (reading a
genuinely free head slot), `delete` and `put` preserve `get` of every other
record off the free list. -/
theorem C8_frame_amended :
    (∀ p d r, SPWF p → 1 ≤ r → r ≤ p.num_records →
      ∀ q rid, slottedAdd p d = .ok (q, rid) → slottedGet q r = slottedGet p r) ∧
    (∀ p r r', SPWF p → 1 ≤ r → r ≤ p.num_records → 1 ≤ r' → r' ≤ p.num_records →
      r ≠ r' → slottedGet (slottedDelete p r') r = slottedGet p r) ∧
    (∀ p r r' d, SPWF p → 1 ≤ r → r ≤ p.num_records → 1 ≤ r' → r' ≤ p.num_records →
      r ≠ r' → (getHeader p r').2 ≠ 0 → (getHeader p r').1 ≠ 0 →
      ∀ q, slottedPut p r' d = .ok q → slottedGet q r = slottedGet p r) ∧
    (∀ (p : FixedPage) d r, d.length = p.data_length →
      p.free_list.contains r = false →
      p.free_list.contains (memGetN p.mem p.block_size 0) = true →
      ∀ q rid, fixedAdd p d = .ok (q, rid) → fixedGet q r = fixedGet p r) ∧
    (∀ (p : FixedPage) r r', r ≠ r' → 2 ≤ p.data_length →
      fixedGet (fixedDelete p r') r = fixedGet p r) ∧
    (∀ (p : FixedPage) r r' d, r ≠ r' → d.length = p.data_length →
      fixedGet (fixedPut p r' d) r = fixedGet p r) :=
  ⟨fun p d r hwf h1 h2 => slottedAdd_frame p d r hwf h1 h2,
   fun p r r' hwf h1 h2 h3 h4 h5 => slottedDelete_frame p r r' hwf h1 h2 h3 h4 h5,
   fun p r r' d hwf h1 h2 h3 h4 h5 h6 h7 =>
     slottedPut_frame p r r' d hwf h1 h2 h3 h4 h5 h6 h7,
   fun p d r h1 h2 h3 => fixedAdd_frame p d r h1 h2 h3,
   fun p r r' h1 h2 => fixedDelete_frame p r r' h1 h2,
   fun p r r' d h1 h2 => fixedPut_frame p r r' d h1 h2⟩

/-- Concrete instantiation of `C8_frame_amended`: on the demo pages,
deleting record 2 and rewriting record 2 both leave record 1's `get`
unchanged, and overwriting fixed-length record 1 leaves record 0 unchanged. -/
theorem C8_frame_amended_witness :
    (slottedGet (slottedDelete demoPage2 2) 1 = slottedGet demoPage2 1) ∧
    (slottedGet demoPut 1 = slottedGet demoPage2 1) ∧
    (fixedGet (fixedPut demoFixedC 1 [7, 7]) 0 = fixedGet demoFixedC 0) :=
  ⟨C8_frame_amended.2.1 demoPage2 1 2 (by decide) (by decide) (by decide) (by decide)
      (by decide) (by decide),
   C8_frame_amended.2.2.1 demoPage2 1 2 [9] (by decide) (by decide) (by decide)
      (by decide) (by decide) (by decide) (by decide) (by decide) demoPut (by rfl),
   C8_frame_amended.2.2.2.2.2 demoFixedC 0 1 [7, 7] (by decide) (by decide)⟩

theorem sr_comp (a m n : Nat) : (a >>> m) >>> n = a >>> (m + n) :=
  (Nat.shiftRight_add a m n).symm

theorem sr_one_eq_div (a : Nat) : a >>> 1 = a / 2 := by
  rw [Nat.shiftRight_eq_div_pow, pow_one]

theorem slot_lt (h M b : Nat) (hh : h < 2 ^ M) (hb : b ≤ M) : h >>> (M - b) < 2 ^ b := by
  rw [Nat.shiftRight_eq_div_pow]
  apply Nat.div_lt_of_lt_mul
  calc h < 2 ^ M := hh
    _ = 2 ^ b * 2 ^ (M - b) := by rw [← pow_add]; congr 1; omega
    _ = 2 ^ (M - b) * 2 ^ b := Nat.mul_comm _ _

theorem div_eq_iff_interval (t i q : Nat) (ht : 0 < t) :
    i / t = q ↔ q * t ≤ i ∧ i < (q + 1) * t := by
  constructor
  · intro h
    subst h
    have hd := Nat.div_add_mod i t
    have hm := Nat.mod_lt i ht
    have e1 : i / t * t = t * (i / t) := Nat.mul_comm _ _
    have e2 : (i / t + 1) * t = t * (i / t) + t := by ring
    omega
  · intro ⟨h1, h2⟩
    have hd := Nat.div_add_mod i t
    have hm := Nat.mod_lt i ht
    have e1 : q * t = t * q := Nat.mul_comm _ _
    have e2 : (q + 1) * t = t * q + t := by ring
    -- i / t = q by sandwiching
    have h3 : i / t ≤ q := by
      by_contra hc
      push_neg at hc
      have : (q + 1) * t ≤ i / t * t := Nat.mul_le_mul_right t hc
      have e3 : i / t * t = t * (i / t) := Nat.mul_comm _ _
      omega
    have h4 : q ≤ i / t := by
      by_contra hc
      push_neg at hc
      have : (i / t + 1) * t ≤ q * t := Nat.mul_le_mul_right t hc
      have e3 : (i / t + 1) * t = t * (i / t) + t := by ring
      omega
    omega

theorem parent_cases (x k p : Nat) (h : x >>> (k + 1) = p) :
    x >>> k = 2 * p ∨ x >>> k = 2 * p + 1 := by
  have h1 : (x >>> k) >>> 1 = p := by rw [sr_comp]; exact h
  rw [sr_one_eq_div] at h1
  omega

theorem child_parent (x k p : Nat) (h : x >>> k = 2 * p ∨ x >>> k = 2 * p + 1) :
    x >>> (k + 1) = p := by
  rw [← sr_comp, sr_one_eq_div]
  omega

theorem find?_filter_of_imp {α : Type} (l : List α) (pred q : α → Bool)
    (himp : ∀ a, pred a = true → q a = true) :
    (l.filter q).find? pred = l.find? pred := by
  induction l with
  | nil => rfl
  | cons a t ih =>
    by_cases hq : q a = true
    · rw [List.filter_cons_of_pos hq]
      by_cases hp : pred a = true
      · rw [List.find?_cons_of_pos _ hp, List.find?_cons_of_pos _ hp]
      · rw [List.find?_cons_of_neg _ (by simpa using hp),
          List.find?_cons_of_neg _ (by simpa using hp)]
        exact ih
    · have hp : ¬ pred a = true := fun hpa => hq (himp a hpa)
      rw [List.filter_cons_of_neg (by simpa using hq),
        List.find?_cons_of_neg _ (by simpa using hp)]
      exact ih

theorem upd_find_self (l : List (Nat × List Handle)) (h : Nat) (hd : Handle) :
    (l.map (fun rec => if rec.1 == h then (rec.1, rec.2 ++ [hd]) else rec)).find?
        (fun rec => rec.1 == h)
      = (l.find? (fun rec => rec.1 == h)).map (fun rec => (rec.1, rec.2 ++ [hd])) := by
  induction l with
  | nil => rfl
  | cons a t ih =>
    by_cases ha : a.1 = h
    · have hif : (if a.1 == h then (a.1, a.2 ++ [hd]) else a) = (a.1, a.2 ++ [hd]) := by
        simp [ha]
      simp only [List.map_cons, hif]
      rw [List.find?_cons_of_pos _ (by simpa using ha),
        List.find?_cons_of_pos _ (by simpa using ha)]
      simp
    · simp only [List.map_cons]
      rw [if_neg (by simpa using ha), List.find?_cons_of_neg _ (by simpa using ha),
        List.find?_cons_of_neg _ (by simpa using ha)]
      exact ih

theorem upd_find_other (l : List (Nat × List Handle)) (h h2 : Nat) (hd : Handle)
    (hne : h2 ≠ h) :
    (l.map (fun rec => if rec.1 == h then (rec.1, rec.2 ++ [hd]) else rec)).find?
        (fun rec => rec.1 == h2)
      = l.find? (fun rec => rec.1 == h2) := by
  induction l with
  | nil => rfl
  | cons a t ih =>
    by_cases ha : a.1 = h2
    · simp only [List.map_cons]
      rw [if_neg (by simp [ha, hne]), List.find?_cons_of_pos _ (by simpa using ha),
        List.find?_cons_of_pos _ (by simpa using ha)]
    · simp only [List.map_cons]
      by_cases hah : a.1 = h
      · rw [if_pos (by simpa using hah), List.find?_cons_of_neg _ (by simpa using ha),
          List.find?_cons_of_neg _ (by simpa using ha)]
        exact ih
      · rw [if_neg (by simpa using hah), List.find?_cons_of_neg _ (by simpa using ha),
          List.find?_cons_of_neg _ (by simpa using ha)]
        exact ih

theorem upd_keys (l : List (Nat × List Handle)) (h : Nat) (hd : Handle) :
    (l.map (fun rec => if rec.1 == h then (rec.1, rec.2 ++ [hd]) else rec)).map Prod.fst
      = l.map Prod.fst := by
  rw [List.map_map]
  apply List.map_congr_left
  intro a _
  show (if a.1 == h then (a.1, a.2 ++ [hd]) else a).1 = a.1
  split <;> rfl

theorem upd_mem_key (l : List (Nat × List Handle)) (h : Nat) (hd : Handle) (rec : Nat × List Handle)
    (hm : rec ∈ l.map (fun rec => if rec.1 == h then (rec.1, rec.2 ++ [hd]) else rec)) :
    rec.1 ∈ l.map Prod.fst := by
  rw [List.mem_map] at hm
  obtain ⟨a, ha, heq⟩ := hm
  have : rec.1 = a.1 := by
    rw [← heq]
    show (if a.1 == h then (a.1, a.2 ++ [hd]) else a).1 = a.1
    split <;> rfl
  rw [this]
  exact List.mem_map_of_mem Prod.fst ha

theorem bucketAdd_ok (fits : FitsOracle) (B : HashBucket) (h : Nat) (hd : Handle)
    (B' : HashBucket) (heq : bucketAdd fits B h hd = .ok B') :
    B'.hashPfx = B.hashPfx ∧ B'.bitsUsed = B.bitsUsed ∧
    ((B'.records.map Prod.fst = B.records.map Prod.fst) ∨
      (B'.records.map Prod.fst = B.records.map Prod.fst ++ [h] ∧
        B.records.find? (fun rec => rec.1 == h) = none)) ∧
    (∀ rec ∈ B'.records, rec.1 ∈ B.records.map Prod.fst ∨ rec.1 = h) ∧
    bucketFind B' h = some ((bucketFind B h).getD [] ++ [hd]) ∧
    (∀ h2, h2 ≠ h → bucketFind B' h2 = bucketFind B h2) := by
  unfold bucketAdd at heq
  split at heq
  case _ hfind =>
    split at heq
    · simp only [Except.ok.injEq] at heq
      subst heq
      have hfnone : B.records.find? (fun rec => rec.1 == h) = none := by
        cases hfa : B.records.find? (fun rec => rec.1 == h) with
        | none => rfl
        | some a =>
          rw [bucketFind, hfa] at hfind
          exact absurd hfind (by simp)
      refine ⟨rfl, rfl, Or.inr ⟨by simp, hfnone⟩, ?_, ?_, ?_⟩
      · intro rec hm
        rcases List.mem_append.mp hm with hm1 | hm1
        · exact Or.inl (List.mem_map_of_mem Prod.fst hm1)
        · simp only [List.mem_singleton] at hm1
          subst hm1
          exact Or.inr rfl
      · show ((B.records ++ [(h, [hd])]).find? (fun rec => rec.1 == h)).map Prod.snd = _
        rw [List.find?_append, hfnone]
        simp [hfind]
      · intro h2 hne
        show ((B.records ++ [(h, [hd])]).find? (fun rec => rec.1 == h2)).map Prod.snd = _
        rw [List.find?_append]
        have h2none : ([(h, [hd])].find? (fun rec => rec.1 == h2)) = none := by
          simp [Ne.symm hne]
        rw [h2none]
        cases hfa : B.records.find? (fun rec => rec.1 == h2) <;> simp [bucketFind, hfa]
    · exact absurd heq (by simp)
  case _ hs hfind =>
    split at heq
    · simp only [Except.ok.injEq] at heq
      subst heq
      refine ⟨rfl, rfl, Or.inl (upd_keys _ _ _), ?_, ?_, ?_⟩
      · intro rec hm
        exact Or.inl (upd_mem_key _ _ _ _ hm)
      · show ((B.records.map (fun rec => if rec.1 == h then (rec.1, rec.2 ++ [hd])
            else rec)).find? (fun rec => rec.1 == h)).map Prod.snd = _
        rw [upd_find_self]
        cases hfa : B.records.find? (fun rec => rec.1 == h) with
        | none =>
          rw [bucketFind, hfa] at hfind
          exact absurd hfind (by simp)
        | some a =>
          rw [bucketFind, hfa] at hfind
          simp at hfind
          rw [bucketFind, hfa]
          simp [hfind]
      · intro h2 hne
        show ((B.records.map (fun rec => if rec.1 == h then (rec.1, rec.2 ++ [hd])
            else rec)).find? (fun rec => rec.1 == h2)).map Prod.snd = _
        rw [upd_find_other _ _ _ _ hne]
        rfl
    · exact absurd heq (by simp)

theorem addList_fold (fits : FitsOracle) (l : List (Nat × List Handle)) :
    ∀ (acc B1 : HashBucket),
      (acc.records.map Prod.fst ++ l.map Prod.fst).Nodup →
      l.foldlM (fun acc rec => bucketAddList fits acc rec.1 rec.2) acc = .ok B1 →
      B1.hashPfx = acc.hashPfx ∧ B1.bitsUsed = acc.bitsUsed ∧
      B1.records = acc.records ++ l := by
  induction l with
  | nil =>
    intro acc B1 _ heq
    simp only [List.foldlM_nil] at heq
    have heq2 : (Except.ok acc : Except PyErr HashBucket) = .ok B1 := heq
    simp only [Except.ok.injEq] at heq2
    subst heq2
    exact ⟨rfl, rfl, by simp⟩
  | cons a t ih =>
    intro acc B1 hnd heq
    rw [List.foldlM_cons] at heq
    have hmem : a.1 ∉ acc.records.map Prod.fst := by
      rw [List.nodup_append] at hnd
      intro hcon
      exact hnd.2.2 hcon (by simp)
    have hfindacc : bucketFind acc a.1 = none := by
      cases hfa : acc.records.find? (fun rec => rec.1 == a.1) with
      | none => simp [bucketFind, hfa]
      | some a' =>
        exfalso
        have h1 := List.find?_some hfa
        have h2 := List.mem_of_find?_eq_some hfa
        apply hmem
        have h3 : a'.1 = a.1 := by simpa using h1
        rw [← h3]
        exact List.mem_map_of_mem Prod.fst h2
    simp only [bucketAddList, hfindacc] at heq
    split at heq
    · have hred : ∀ (x : HashBucket) (k : HashBucket → Except PyErr HashBucket),
          (Except.ok x >>= k) = k x := fun _ _ => rfl
      rw [hred] at heq
      have hnd2 : (({ acc with records := acc.records ++ [(a.1, a.2)] }
          : HashBucket).records.map Prod.fst ++ t.map Prod.fst).Nodup := by
        show ((acc.records ++ [(a.1, a.2)]).map Prod.fst ++ t.map Prod.fst).Nodup
        rw [List.map_append, List.append_assoc]
        simpa using hnd
      obtain ⟨e1, e2, e3⟩ := ih _ B1 hnd2 heq
      refine ⟨e1, e2, ?_⟩
      rw [e3]
      simp
    · have hred : ∀ (k : HashBucket → Except PyErr HashBucket),
          ((Except.error PyErr.noRoom : Except PyErr HashBucket) >>= k)
            = Except.error PyErr.noRoom := fun _ => rfl
      rw [hred] at heq
      exact absurd heq (by simp)

theorem hashWF_init : HashWF hashCreateState := by
  refine ⟨?_, ?_, ?_, ?_, ?_, ?_⟩
  · decide
  · intro b B h
    simp only [hashCreateState] at h
    split at h
    · rename_i hb
      simp only [hashCreateState]
      omega
    · exact absurd h (by simp)
  · intro b B h
    simp only [hashCreateState] at h
    split at h
    · simp only [Option.some.injEq] at h
      subst h
      exact ⟨by decide, by decide⟩
    · exact absurd h (by simp)
  · intro i hi
    simp only [hashCreateState] at hi ⊢
    have h0 : i = 0 := by
      simp only [pow_zero] at hi
      omega
    subst h0
    exact ⟨{ hashPfx := 0, bitsUsed := 0, records := [] }, by simp, by decide, by decide⟩
  · intro b B h i hi hpfx
    simp only [hashCreateState] at h ⊢
    split at h
    · rename_i hb
      omega
    · exact absurd h (by simp)
  · intro b B h
    simp only [hashCreateState] at h
    split at h
    · simp only [Option.some.injEq] at h
      subst h
      exact ⟨by simp, by simp⟩
    · exact absurd h (by simp)

theorem hashLookup_eq_of_bucket (t : HashIdx) (h2 : Nat) (Bx : HashBucket)
    (h : t.buckets (t.bat (hashSlotOf t h2)) = some Bx) :
    hashLookup t h2 = (bucketFind Bx h2).getD [] := by
  unfold hashLookup
  rw [h]

theorem hashSplit_repoint_ok (s s' : HashIdx) (bid : Nat) (B B1 : HashBucket)
    (hwf : HashWF s) (hB : s.buckets bid = some B)
    (hbM : B.bitsUsed < MAX_BITS) (hle : B.bitsUsed + 1 ≤ s.btb)
    (hB1p : B1.hashPfx = B.hashPfx * 2 + 1) (hB1b : B1.bitsUsed = B.bitsUsed + 1)
    (hB1r : B1.records = B.records.filter
      (fun rec => rec.1 >>> (MAX_BITS - (B.bitsUsed + 1)) == B.hashPfx * 2 + 1))
    (hbk : ∀ b, s'.buckets b = if b = s.nextBlock + 1 then some B1
        else if b = bid then some { hashPfx := B.hashPfx * 2, bitsUsed := B.bitsUsed + 1, records := B.records.filter (fun rec => ¬ (rec.1 >>> (MAX_BITS - (B.bitsUsed + 1)) == B.hashPfx * 2 + 1)) }
        else s.buckets b)
    (hbat : ∀ i, s'.bat i = if (B.hashPfx * 2 + 1) <<< (s.btb - (B.bitsUsed + 1)) ≤ i ∧
          i < (B.hashPfx * 2 + 1 + 1) <<< (s.btb - (B.bitsUsed + 1)) then s.nextBlock + 1
        else s.bat i)
    (hbtb' : s'.btb = s.btb) (hnbk : s'.nextBlock = s.nextBlock + 1) :
    HashWF s' ∧ ∀ h2, h2 < 2 ^ MAX_BITS → hashLookup s' h2 = hashLookup s h2 := by
  set B0 : HashBucket := { hashPfx := B.hashPfx * 2, bitsUsed := B.bitsUsed + 1, records := B.records.filter (fun rec => ¬ (rec.1 >>> (MAX_BITS - (B.bitsUsed + 1)) == B.hashPfx * 2 + 1)) } with hB0def
  have hok := hwf.bucket_ok bid B hB
  have hrecsB := hwf.recs bid B hB
  have hfreshB := hwf.fresh bid B hB
  have hbtb := hwf.btb_le
  have hpow : (2 : Nat) ^ (B.bitsUsed + 1) = 2 * 2 ^ B.bitsUsed := by
    rw [pow_succ]
    ring
  have hpos : 0 < 2 ^ (s.btb - (B.bitsUsed + 1)) := pow_pos (by norm_num) _
  have hint : ∀ i : Nat,
      ((B.hashPfx * 2 + 1) <<< (s.btb - (B.bitsUsed + 1)) ≤ i ∧
        i < (B.hashPfx * 2 + 1 + 1) <<< (s.btb - (B.bitsUsed + 1))) ↔
      i >>> (s.btb - (B.bitsUsed + 1)) = B.hashPfx * 2 + 1 := by
    intro i
    rw [Nat.shiftLeft_eq, Nat.shiftLeft_eq, Nat.shiftRight_eq_div_pow]
    exact (div_eq_iff_interval _ i _ hpos).symm
  have hstep : s.btb - B.bitsUsed = (s.btb - (B.bitsUsed + 1)) + 1 := by omega
  have hMstep : MAX_BITS - B.bitsUsed = (MAX_BITS - (B.bitsUsed + 1)) + 1 := by omega
  have hbatB : ∀ i, i < 2 ^ s.btb → s.bat i = bid →
      i >>> (s.btb - B.bitsUsed) = B.hashPfx := by
    intro i hi hbi
    obtain ⟨Bi, hBi, _, hpfx⟩ := hwf.slot i hi
    rw [hbi, hB] at hBi
    have hBieq : B = Bi := by
      injection hBi
    rw [← hBieq] at hpfx
    exact hpfx.symm
  have hbatle : ∀ i, i < 2 ^ s.btb → s.bat i ≤ s.nextBlock := by
    intro i hi
    obtain ⟨Bi, hBi, _, _⟩ := hwf.slot i hi
    exact hwf.fresh _ _ hBi
  have hkeeprec : ∀ rec ∈ B0.records,
      rec ∈ B.records ∧ rec.1 >>> (MAX_BITS - (B.bitsUsed + 1)) = B.hashPfx * 2 := by
    intro rec hm
    rw [hB0def] at hm
    simp only [List.mem_filter] at hm
    refine ⟨hm.1, ?_⟩
    have h2 := (hrecsB.2 rec hm.1).2
    have hpar := parent_cases rec.1 (MAX_BITS - (B.bitsUsed + 1)) B.hashPfx
      (by rw [← hMstep]; exact h2)
    have hne := hm.2
    simp at hne
    rcases hpar with h | h
    · omega
    · exfalso
      omega
  have hmoverec : ∀ rec ∈ B1.records,
      rec ∈ B.records ∧ rec.1 >>> (MAX_BITS - (B.bitsUsed + 1)) = B.hashPfx * 2 + 1 := by
    intro rec hm
    rw [hB1r] at hm
    simp only [List.mem_filter, beq_iff_eq] at hm
    exact hm
  constructor
  · refine ⟨?_, ?_, ?_, ?_, ?_, ?_⟩
    · rw [hbtb']
      exact hbtb
    · intro b Bx h
      rw [hbk b] at h
      rw [hnbk]
      split at h
      · omega
      · split at h
        · omega
        · have := hwf.fresh b Bx h
          omega
    · intro b Bx h
      rw [hbk b] at h
      rw [hbtb']
      split at h
      · have hBx : B1 = Bx := by injection h
        rw [← hBx, hB1b, hB1p]
        constructor
        · exact hle
        · omega
      · split at h
        · have hBx : B0 = Bx := by injection h
          rw [← hBx, hB0def]
          constructor
          · exact hle
          · show B.hashPfx * 2 < 2 ^ (B.bitsUsed + 1)
            omega
        · exact hwf.bucket_ok b Bx h
    · intro i hi
      rw [hbtb'] at hi
      rw [hbat i]
      by_cases hin : (B.hashPfx * 2 + 1) <<< (s.btb - (B.bitsUsed + 1)) ≤ i ∧
          i < (B.hashPfx * 2 + 1 + 1) <<< (s.btb - (B.bitsUsed + 1))
      · rw [if_pos hin]
        refine ⟨B1, ?_, ?_, ?_⟩
        · rw [hbk]
          rw [if_pos rfl]
        · rw [hbtb', hB1b]
          exact hle
        · rw [hbtb', hB1b, hB1p]
          exact ((hint i).mp hin).symm
      · rw [if_neg hin]
        by_cases hbid : s.bat i = bid
        · have hp := hbatB i hi hbid
          have hio := parent_cases i (s.btb - (B.bitsUsed + 1)) B.hashPfx
            (by rw [← hstep]; exact hp)
          have hieq : i >>> (s.btb - (B.bitsUsed + 1)) = B.hashPfx * 2 := by
            rcases hio with h | h
            · omega
            · exact absurd ((hint i).mpr (by omega)) hin
          refine ⟨B0, ?_, ?_, ?_⟩
          · rw [hbid, hbk]
            rw [if_neg (by omega), if_pos rfl]
          · rw [hbtb', hB0def]
            exact hle
          · rw [hbtb', hB0def]
            exact hieq.symm
        · obtain ⟨Bi, hBi, hble, hpfx⟩ := hwf.slot i hi
          have hne_nb : s.bat i ≠ s.nextBlock + 1 := by
            have := hwf.fresh _ _ hBi
            omega
          refine ⟨Bi, ?_, ?_, ?_⟩
          · rw [hbk, if_neg hne_nb, if_neg hbid]
            exact hBi
          · rw [hbtb']
            exact hble
          · rw [hbtb']
            exact hpfx
    · intro b Bx h i hi hp
      rw [hbk b] at h
      rw [hbtb'] at hi
      rw [hbtb'] at hp
      rw [hbat i]
      split at h
      · rename_i hbnb
        have hBx : B1 = Bx := by injection h
        rw [← hBx, hB1b, hB1p] at hp
        rw [if_pos ((hint i).mpr hp)]
        omega
      · split at h
        · rename_i hnnb hbbid
          have hBx : B0 = Bx := by injection h
          rw [← hBx, hB0def] at hp
          have hp2 : i >>> (s.btb - (B.bitsUsed + 1)) = B.hashPfx * 2 := hp
          rw [if_neg (by
            intro hcon
            have := (hint i).mp hcon
            omega)]
          rw [hbbid]
          apply hwf.coverage bid B hB i hi
          rw [hstep]
          exact child_parent i (s.btb - (B.bitsUsed + 1)) B.hashPfx (Or.inl (by omega))
        · rename_i hnnb hnbid
          have hbatval : s.bat i = b := hwf.coverage b Bx h i hi hp
          by_cases hin : (B.hashPfx * 2 + 1) <<< (s.btb - (B.bitsUsed + 1)) ≤ i ∧
              i < (B.hashPfx * 2 + 1 + 1) <<< (s.btb - (B.bitsUsed + 1))
          · exfalso
            have hx := (hint i).mp hin
            have hp1 : i >>> (s.btb - B.bitsUsed) = B.hashPfx := by
              rw [hstep]
              exact child_parent i (s.btb - (B.bitsUsed + 1)) B.hashPfx (Or.inr (by omega))
            have := hwf.coverage bid B hB i hi hp1
            omega
          · rw [if_neg hin]
            exact hbatval
    · intro b Bx h
      rw [hbk b] at h
      split at h
      · have hBx : B1 = Bx := by injection h
        rw [← hBx]
        constructor
        · rw [hB1r]
          exact ((List.filter_sublist _).map Prod.fst).nodup hrecsB.1
        · intro rec hm
          obtain ⟨hmem, hsh⟩ := hmoverec rec hm
          refine ⟨(hrecsB.2 rec hmem).1, ?_⟩
          rw [hB1b, hB1p]
          exact hsh
      · split at h
        · have hBx : B0 = Bx := by injection h
          rw [← hBx]
          constructor
          · rw [hB0def]
            exact ((List.filter_sublist _).map Prod.fst).nodup hrecsB.1
          · intro rec hm
            obtain ⟨hmem, hsh⟩ := hkeeprec rec hm
            refine ⟨(hrecsB.2 rec hmem).1, ?_⟩
            rw [hB0def]
            exact hsh
        · exact hwf.recs b Bx h
  · intro h2 hh2
    have hslot' : hashSlotOf s' h2 = hashSlotOf s h2 := by
      unfold hashSlotOf
      rw [hbtb']
    have hi2 : hashSlotOf s h2 < 2 ^ s.btb := slot_lt h2 MAX_BITS s.btb hh2 hbtb
    have hdecomp : MAX_BITS - (B.bitsUsed + 1)
        = (MAX_BITS - s.btb) + (s.btb - (B.bitsUsed + 1)) := by omega
    by_cases hin : (B.hashPfx * 2 + 1) <<< (s.btb - (B.bitsUsed + 1)) ≤ hashSlotOf s h2 ∧
        hashSlotOf s h2 < (B.hashPfx * 2 + 1 + 1) <<< (s.btb - (B.bitsUsed + 1))
    · have hx := (hint _).mp hin
      have hbid2 : s.bat (hashSlotOf s h2) = bid := by
        apply hwf.coverage bid B hB _ hi2
        rw [hstep]
        exact child_parent _ (s.btb - (B.bitsUsed + 1)) B.hashPfx (Or.inr (by omega))
      have hh2b : h2 >>> (MAX_BITS - (B.bitsUsed + 1)) = B.hashPfx * 2 + 1 := by
        rw [hdecomp, ← sr_comp]
        exact hx
      rw [hashLookup_eq_of_bucket s' h2 B1 (by
          rw [hslot', hbat, if_pos hin, hbk, if_pos rfl]),
        hashLookup_eq_of_bucket s h2 B (by rw [hbid2]; exact hB)]
      rw [bucketFind, bucketFind, hB1r, find?_filter_of_imp]
      intro a ha
      simp only [beq_iff_eq] at ha ⊢
      rw [ha, hh2b]
    · by_cases hbid2 : s.bat (hashSlotOf s h2) = bid
      · have hp := hbatB _ hi2 hbid2
        have hio := parent_cases (hashSlotOf s h2) (s.btb - (B.bitsUsed + 1)) B.hashPfx
          (by rw [← hstep]; exact hp)
        have hieq : (hashSlotOf s h2) >>> (s.btb - (B.bitsUsed + 1)) = B.hashPfx * 2 := by
          rcases hio with h | h
          · omega
          · exact absurd ((hint _).mpr (by omega)) hin
        have hh2b : h2 >>> (MAX_BITS - (B.bitsUsed + 1)) = B.hashPfx * 2 := by
          rw [hdecomp, ← sr_comp]
          exact hieq
        rw [hashLookup_eq_of_bucket s' h2 B0 (by
            rw [hslot', hbat, if_neg hin, hbid2, hbk, if_neg (by omega), if_pos rfl]),
          hashLookup_eq_of_bucket s h2 B (by rw [hbid2]; exact hB)]
        rw [bucketFind, bucketFind, hB0def, find?_filter_of_imp]
        intro a ha
        simp only [beq_iff_eq] at ha
        simp [ha, hh2b]
      · obtain ⟨Bi, hBi, _, _⟩ := hwf.slot _ hi2
        have hne_nb : s.bat (hashSlotOf s h2) ≠ s.nextBlock + 1 := by
          have := hwf.fresh _ _ hBi
          omega
        rw [hashLookup_eq_of_bucket s' h2 Bi (by
            rw [hslot', hbat, if_neg hin, hbk, if_neg hne_nb, if_neg hbid2]
            exact hBi),
          hashLookup_eq_of_bucket s h2 Bi hBi]

theorem hashSplit_double_ok (s s' : HashIdx) (bid : Nat) (B B1 : HashBucket)
    (hwf : HashWF s) (hB : s.buckets bid = some B)
    (hbM : B.bitsUsed < MAX_BITS) (hgt : ¬ B.bitsUsed + 1 ≤ s.btb)
    (hB1p : B1.hashPfx = B.hashPfx * 2 + 1) (hB1b : B1.bitsUsed = B.bitsUsed + 1)
    (hB1r : B1.records = B.records.filter
      (fun rec => rec.1 >>> (MAX_BITS - (B.bitsUsed + 1)) == B.hashPfx * 2 + 1))
    (hbk : ∀ b, s'.buckets b = if b = s.nextBlock + 1 then some B1
        else if b = bid then some { hashPfx := B.hashPfx * 2, bitsUsed := B.bitsUsed + 1, records := B.records.filter (fun rec => ¬ (rec.1 >>> (MAX_BITS - (B.bitsUsed + 1)) == B.hashPfx * 2 + 1)) }
        else s.buckets b)
    (hbat : ∀ i, s'.bat i = if i = B.hashPfx * 2 then bid
        else if i = B.hashPfx * 2 + 1 then s.nextBlock + 1 else s.bat (i / 2))
    (hbtb' : s'.btb = s.btb + 1) (hnbk : s'.nextBlock = s.nextBlock + 1) :
    HashWF s' ∧ ∀ h2, h2 < 2 ^ MAX_BITS → hashLookup s' h2 = hashLookup s h2 := by
  set B0 : HashBucket := { hashPfx := B.hashPfx * 2, bitsUsed := B.bitsUsed + 1, records := B.records.filter (fun rec => ¬ (rec.1 >>> (MAX_BITS - (B.bitsUsed + 1)) == B.hashPfx * 2 + 1)) } with hB0def
  have hok := hwf.bucket_ok bid B hB
  have hrecsB := hwf.recs bid B hB
  have hfreshB := hwf.fresh bid B hB
  have hbtb := hwf.btb_le
  have hbits : B.bitsUsed = s.btb := by omega
  have hpow : (2 : Nat) ^ (B.bitsUsed + 1) = 2 * 2 ^ B.bitsUsed := by
    rw [pow_succ]
    ring
  have hpow2 : (2 : Nat) ^ (s.btb + 1) = 2 * 2 ^ s.btb := by
    rw [pow_succ]
    ring
  have hMstep : MAX_BITS - B.bitsUsed = (MAX_BITS - (B.bitsUsed + 1)) + 1 := by omega
  have hpfxlt : B.hashPfx < 2 ^ s.btb := by
    rw [← hbits]
    exact hok.2
  have hcovp : s.bat B.hashPfx = bid := by
    apply hwf.coverage bid B hB B.hashPfx hpfxlt
    rw [hbits, Nat.sub_self, Nat.shiftRight_zero]
  have hbatB : ∀ i, i < 2 ^ s.btb → s.bat i = bid → i = B.hashPfx := by
    intro i hi hbi
    obtain ⟨Bi, hBi, _, hpfx⟩ := hwf.slot i hi
    rw [hbi, hB] at hBi
    have hBieq : B = Bi := by injection hBi
    rw [← hBieq] at hpfx
    rw [hpfx, hbits, Nat.sub_self, Nat.shiftRight_zero]
  have hkeeprec : ∀ rec ∈ B0.records,
      rec ∈ B.records ∧ rec.1 >>> (MAX_BITS - (B.bitsUsed + 1)) = B.hashPfx * 2 := by
    intro rec hm
    rw [hB0def] at hm
    simp only [List.mem_filter] at hm
    refine ⟨hm.1, ?_⟩
    have h2 := (hrecsB.2 rec hm.1).2
    have hpar := parent_cases rec.1 (MAX_BITS - (B.bitsUsed + 1)) B.hashPfx
      (by rw [← hMstep]; exact h2)
    have hne := hm.2
    simp at hne
    rcases hpar with h | h
    · omega
    · exfalso
      omega
  have hmoverec : ∀ rec ∈ B1.records,
      rec ∈ B.records ∧ rec.1 >>> (MAX_BITS - (B.bitsUsed + 1)) = B.hashPfx * 2 + 1 := by
    intro rec hm
    rw [hB1r] at hm
    simp only [List.mem_filter, beq_iff_eq] at hm
    exact hm
  constructor
  · refine ⟨?_, ?_, ?_, ?_, ?_, ?_⟩
    · rw [hbtb']
      omega
    · intro b Bx h
      rw [hbk b] at h
      rw [hnbk]
      split at h
      · omega
      · split at h
        · omega
        · have := hwf.fresh b Bx h
          omega
    · intro b Bx h
      rw [hbk b] at h
      rw [hbtb']
      split at h
      · have hBx : B1 = Bx := by injection h
        rw [← hBx, hB1b, hB1p]
        constructor
        · omega
        · omega
      · split at h
        · have hBx : B0 = Bx := by injection h
          rw [← hBx, hB0def]
          constructor
          · show B.bitsUsed + 1 ≤ s.btb + 1
            omega
          · show B.hashPfx * 2 < 2 ^ (B.bitsUsed + 1)
            omega
        · have := hwf.bucket_ok b Bx h
          exact ⟨by omega, this.2⟩
    · intro i hi
      rw [hbtb'] at hi
      rw [hbat i]
      by_cases hi0 : i = B.hashPfx * 2
      · rw [if_pos hi0]
        refine ⟨B0, ?_, ?_, ?_⟩
        · rw [hbk, if_neg (by omega), if_pos rfl]
        · rw [hbtb', hB0def]
          show B.bitsUsed + 1 ≤ s.btb + 1
          omega
        · rw [hbtb', hB0def]
          show B.hashPfx * 2 = i >>> (s.btb + 1 - (B.bitsUsed + 1))
          rw [show s.btb + 1 - (B.bitsUsed + 1) = 0 from by omega, Nat.shiftRight_zero]
          omega
      · rw [if_neg hi0]
        by_cases hi1 : i = B.hashPfx * 2 + 1
        · rw [if_pos hi1]
          refine ⟨B1, ?_, ?_, ?_⟩
          · rw [hbk, if_pos rfl]
          · rw [hbtb', hB1b]
            omega
          · rw [hbtb', hB1b, hB1p]
            rw [show s.btb + 1 - (B.bitsUsed + 1) = 0 from by omega, Nat.shiftRight_zero]
            omega
        · rw [if_neg hi1]
          have hidiv : i / 2 < 2 ^ s.btb := by omega
          obtain ⟨Bi, hBi, hble, hpfx⟩ := hwf.slot (i / 2) hidiv
          have hnbid : s.bat (i / 2) ≠ bid := by
            intro hcon
            have := hbatB (i / 2) hidiv hcon
            omega
          have hne_nb : s.bat (i / 2) ≠ s.nextBlock + 1 := by
            have := hwf.fresh _ _ hBi
            omega
          refine ⟨Bi, ?_, ?_, ?_⟩
          · rw [hbk, if_neg hne_nb, if_neg hnbid]
            exact hBi
          · rw [hbtb']
            omega
          · rw [hbtb']
            rw [show s.btb + 1 - Bi.bitsUsed = 1 + (s.btb - Bi.bitsUsed) from by omega,
              ← sr_comp, sr_one_eq_div]
            exact hpfx
    · intro b Bx h i hi hp
      rw [hbk b] at h
      rw [hbtb'] at hi hp
      rw [hbat i]
      split at h
      · rename_i hbnb
        have hBx : B1 = Bx := by injection h
        rw [← hBx, hB1b, hB1p] at hp
        rw [show s.btb + 1 - (B.bitsUsed + 1) = 0 from by omega, Nat.shiftRight_zero] at hp
        rw [if_neg (by omega), if_pos (by omega)]
        omega
      · split at h
        · rename_i hnnb hbbid
          have hBx : B0 = Bx := by injection h
          rw [← hBx, hB0def] at hp
          have hp2 : i >>> (s.btb + 1 - (B.bitsUsed + 1)) = B.hashPfx * 2 := hp
          rw [show s.btb + 1 - (B.bitsUsed + 1) = 0 from by omega,
            Nat.shiftRight_zero] at hp2
          rw [if_pos (by omega)]
          omega
        · rename_i hnnb hnbid
          have hble2 : Bx.bitsUsed ≤ s.btb := (hwf.bucket_ok b Bx h).1
          have hp2 : (i / 2) >>> (s.btb - Bx.bitsUsed) = Bx.hashPfx := by
            rw [← sr_one_eq_div, sr_comp,
              show 1 + (s.btb - Bx.bitsUsed) = s.btb + 1 - Bx.bitsUsed from by omega]
            exact hp
          have hbatval : s.bat (i / 2) = b := hwf.coverage b Bx h (i / 2) (by omega) hp2
          have hi0 : i ≠ B.hashPfx * 2 := by
            intro hcon
            have hdiv : i / 2 = B.hashPfx := by omega
            rw [hdiv] at hbatval
            rw [hcovp] at hbatval
            exact hnbid hbatval.symm
          have hi1 : i ≠ B.hashPfx * 2 + 1 := by
            intro hcon
            have hdiv : i / 2 = B.hashPfx := by omega
            rw [hdiv] at hbatval
            rw [hcovp] at hbatval
            exact hnbid hbatval.symm
          rw [if_neg hi0, if_neg hi1]
          exact hbatval
    · intro b Bx h
      rw [hbk b] at h
      split at h
      · have hBx : B1 = Bx := by injection h
        rw [← hBx]
        constructor
        · rw [hB1r]
          exact ((List.filter_sublist _).map Prod.fst).nodup hrecsB.1
        · intro rec hm
          obtain ⟨hmem, hsh⟩ := hmoverec rec hm
          refine ⟨(hrecsB.2 rec hmem).1, ?_⟩
          rw [hB1b, hB1p]
          exact hsh
      · split at h
        · have hBx : B0 = Bx := by injection h
          rw [← hBx]
          constructor
          · rw [hB0def]
            exact ((List.filter_sublist _).map Prod.fst).nodup hrecsB.1
          · intro rec hm
            obtain ⟨hmem, hsh⟩ := hkeeprec rec hm
            refine ⟨(hrecsB.2 rec hmem).1, ?_⟩
            rw [hB0def]
            exact hsh
        · exact hwf.recs b Bx h
  · intro h2 hh2
    have hi2 : hashSlotOf s h2 < 2 ^ s.btb := slot_lt h2 MAX_BITS s.btb hh2 hbtb
    have hs2 : hashSlotOf s h2 = hashSlotOf s' h2 / 2 := by
      unfold hashSlotOf
      rw [hbtb', show MAX_BITS - s.btb = (MAX_BITS - (s.btb + 1)) + 1 from by omega,
        ← sr_comp, sr_one_eq_div]
    have hsh2 : h2 >>> (MAX_BITS - (B.bitsUsed + 1)) = hashSlotOf s' h2 := by
      unfold hashSlotOf
      rw [hbtb', show MAX_BITS - (B.bitsUsed + 1) = MAX_BITS - (s.btb + 1) from by omega]
    by_cases h2p : hashSlotOf s' h2 = B.hashPfx * 2
    · have hbid2 : s.bat (hashSlotOf s h2) = bid := by
        rw [hs2, h2p, show B.hashPfx * 2 / 2 = B.hashPfx from by omega]
        exact hcovp
      rw [hashLookup_eq_of_bucket s' h2 B0 (by
          rw [hbat, if_pos h2p, hbk, if_neg (by omega), if_pos rfl]),
        hashLookup_eq_of_bucket s h2 B (by rw [hbid2]; exact hB)]
      rw [bucketFind, bucketFind, hB0def, find?_filter_of_imp]
      intro a ha
      simp only [beq_iff_eq] at ha
      simp [ha, hsh2, h2p]
    · by_cases h2p1 : hashSlotOf s' h2 = B.hashPfx * 2 + 1
      · have hbid2 : s.bat (hashSlotOf s h2) = bid := by
          rw [hs2, h2p1, show (B.hashPfx * 2 + 1) / 2 = B.hashPfx from by omega]
          exact hcovp
        rw [hashLookup_eq_of_bucket s' h2 B1 (by
            rw [hbat, if_neg h2p, if_pos h2p1, hbk, if_pos rfl]),
          hashLookup_eq_of_bucket s h2 B (by rw [hbid2]; exact hB)]
        rw [bucketFind, bucketFind, hB1r, find?_filter_of_imp]
        intro a ha
        simp only [beq_iff_eq] at ha ⊢
        rw [ha, hsh2, h2p1]
      · obtain ⟨Bi, hBi, _, _⟩ := hwf.slot _ hi2
        have hnbid : s.bat (hashSlotOf s h2) ≠ bid := by
          intro hcon
          have := hbatB _ hi2 hcon
          omega
        have hne_nb : s.bat (hashSlotOf s h2) ≠ s.nextBlock + 1 := by
          have := hwf.fresh _ _ hBi
          omega
        rw [hashLookup_eq_of_bucket s' h2 Bi (by
            rw [hbat, if_neg h2p, if_neg h2p1, ← hs2, hbk, if_neg hne_nb, if_neg hnbid]
            exact hBi),
          hashLookup_eq_of_bucket s h2 Bi hBi]

theorem hashSplit_ok (fits : FitsOracle) (s : HashIdx) (bid : Nat) (B : HashBucket)
    (hwf : HashWF s) (hB : s.buckets bid = some B) (s' : HashIdx)
    (heq : hashSplit fits s bid B = .ok s') :
    HashWF s' ∧ ∀ h2, h2 < 2 ^ MAX_BITS → hashLookup s' h2 = hashLookup s h2 := by
  have hok := hwf.bucket_ok bid B hB
  have hrecsB := hwf.recs bid B hB
  have hbtb := hwf.btb_le
  simp only [hashSplit] at heq
  split at heq
  · exact absurd heq (by simp)
  · rename_i hbM
    split at heq
    · exact absurd heq (by simp)
    · rename_i B1 hfold
      have hbM' : B.bitsUsed < MAX_BITS := lt_of_le_of_ne (le_trans hok.1 hbtb) hbM
      have hmovesub : ((List.filter
          (fun rec => rec.1 >>> (MAX_BITS - (B.bitsUsed + 1)) == B.hashPfx * 2 + 1)
          B.records).map Prod.fst).Nodup :=
        ((List.filter_sublist _).map Prod.fst).nodup hrecsB.1
      obtain ⟨hB1p, hB1b, hB1r⟩ := addList_fold fits _ _ B1 (by simpa using hmovesub) hfold
      rw [List.nil_append] at hB1r
      split at heq
      · rename_i hle
        simp only [Except.ok.injEq] at heq
        subst heq
        exact hashSplit_repoint_ok s _ bid B B1 hwf hB hbM' hle hB1p hB1b hB1r
          (fun b => rfl) (fun i => rfl) rfl rfl
      · rename_i hgt
        simp only [Except.ok.injEq] at heq
        subst heq
        exact hashSplit_double_ok s _ bid B B1 hwf hB hbM' hgt hB1p hB1b hB1r
          (fun b => rfl) (fun i => rfl) rfl rfl

theorem hashInsert_addok (fits : FitsOracle) (s : HashIdx) (h : Nat) (hd : Handle)
    (B B' : HashBucket) (hwf : HashWF s) (hh : h < 2 ^ MAX_BITS)
    (hB : s.buckets (s.bat (hashSlotOf s h)) = some B)
    (hadd : bucketAdd fits B h hd = .ok B') (s' : HashIdx)
    (hbk : ∀ b, s'.buckets b = if b = s.bat (hashSlotOf s h) then some B' else s.buckets b)
    (hbat : s'.bat = s.bat) (hbtb' : s'.btb = s.btb) (hnbk : s'.nextBlock = s.nextBlock) :
    HashWF s' ∧ hd ∈ hashLookup s' h ∧
      ∀ h2 hd2, hd2 ∈ hashLookup s h2 → hd2 ∈ hashLookup s' h2 := by
  obtain ⟨hap, hab, hakeys, hamem, haself, haother⟩ := bucketAdd_ok fits B h hd B' hadd
  have hbtb := hwf.btb_le
  have hi : hashSlotOf s h < 2 ^ s.btb := slot_lt h MAX_BITS s.btb hh hbtb
  obtain ⟨Bi, hBi, hble0, hpfx0⟩ := hwf.slot _ hi
  have hBieq : Bi = B := by
    rw [hBi] at hB
    injection hB
  rw [hBieq] at hble0 hpfx0
  have hkey : h >>> (MAX_BITS - B.bitsUsed) = B.hashPfx := by
    rw [show MAX_BITS - B.bitsUsed
        = (MAX_BITS - s.btb) + (s.btb - B.bitsUsed) from by omega, ← sr_comp]
    exact hpfx0.symm
  have hslot' : hashSlotOf s' h = hashSlotOf s h := by
    unfold hashSlotOf
    rw [hbtb']
  refine ⟨⟨?_, ?_, ?_, ?_, ?_, ?_⟩, ?_, ?_⟩
  · rw [hbtb']
    exact hbtb
  · intro b Bx hx
    rw [hbk b] at hx
    rw [hnbk]
    split at hx
    · rename_i hb
      rw [hb]
      exact hwf.fresh _ B hB
    · exact hwf.fresh b Bx hx
  · intro b Bx hx
    rw [hbk b] at hx
    rw [hbtb']
    split at hx
    · have hBx : B' = Bx := by injection hx
      rw [← hBx, hap, hab]
      exact hwf.bucket_ok _ B hB
    · exact hwf.bucket_ok b Bx hx
  · intro i hi2
    rw [hbtb'] at hi2
    rw [hbat]
    obtain ⟨Bj, hBj, hble, hpfx⟩ := hwf.slot i hi2
    by_cases hbi : s.bat i = s.bat (hashSlotOf s h)
    · have hBjB : Bj = B := by
        rw [hbi, hB] at hBj
        injection hBj with hv
        exact hv.symm
      refine ⟨B', ?_, ?_, ?_⟩
      · rw [hbk, if_pos hbi]
      · rw [hbtb', hab]
        rw [hBjB] at hble
        exact hble
      · rw [hbtb', hab, hap]
        rw [hBjB] at hpfx
        exact hpfx
    · refine ⟨Bj, ?_, ?_, ?_⟩
      · rw [hbk, if_neg hbi]
        exact hBj
      · rw [hbtb']
        exact hble
      · rw [hbtb']
        exact hpfx
  · intro b Bx hx i hi2 hp
    rw [hbk b] at hx
    rw [hbtb'] at hi2 hp
    rw [hbat]
    split at hx
    · rename_i hb
      have hBx : B' = Bx := by injection hx
      rw [← hBx, hab, hap] at hp
      rw [hb]
      exact hwf.coverage _ B hB i hi2 hp
    · exact hwf.coverage b Bx hx i hi2 hp
  · intro b Bx hx
    rw [hbk b] at hx
    split at hx
    · have hBx : B' = Bx := by injection hx
      rw [← hBx]
      have hrecsB := hwf.recs _ B hB
      constructor
      · rcases hakeys with hk | hk
        · rw [hk]
          exact hrecsB.1
        · rw [hk.1]
          have hnotin : h ∉ B.records.map Prod.fst := by
            intro hcon
            rw [List.mem_map] at hcon
            obtain ⟨a, ha, hae⟩ := hcon
            have := List.find?_eq_none.mp hk.2 a ha
            simp [hae] at this
          simp [List.nodup_append, hrecsB.1, hnotin]
      · intro rec hm
        rcases hamem rec hm with hk | hk
        · rw [List.mem_map] at hk
          obtain ⟨a, ha, hae⟩ := hk
          have := hrecsB.2 a ha
          rw [hab, hap, hae] at *
          constructor
          · rw [← hae]
            exact this.1
          · rw [← hae]
            exact this.2
        · rw [hk, hab, hap]
          exact ⟨hh, hkey⟩
    · exact hwf.recs b Bx hx
  · rw [hashLookup_eq_of_bucket s' h B' (by
        rw [hslot', hbat, hbk, if_pos rfl]),
      haself]
    simp
  · intro h2 hd2 hmem
    have hslot2 : hashSlotOf s' h2 = hashSlotOf s h2 := by
      unfold hashSlotOf
      rw [hbtb']
    cases hb2 : s.buckets (s.bat (hashSlotOf s h2)) with
    | none =>
      unfold hashLookup at hmem
      rw [hb2] at hmem
      exact absurd hmem (by simp)
    | some B2 =>
      rw [hashLookup_eq_of_bucket s h2 B2 hb2] at hmem
      by_cases hbi : s.bat (hashSlotOf s h2) = s.bat (hashSlotOf s h)
      · have hB2B : B2 = B := by
          rw [hbi, hB] at hb2
          injection hb2 with hv
          exact hv.symm
        rw [hashLookup_eq_of_bucket s' h2 B' (by
            rw [hslot2, hbat, hbk, if_pos hbi])]
        by_cases hh2 : h2 = h
        · subst hh2
          rw [haself]
          simp only [Option.getD_some]
          apply List.mem_append_left
          rw [hB2B] at hmem
          exact hmem
        · rw [haother h2 hh2]
          rw [hB2B] at hmem
          exact hmem
      · rw [hashLookup_eq_of_bucket s' h2 B2 (by
            rw [hslot2, hbat, hbk, if_neg hbi]
            exact hb2)]
        exact hmem

theorem hashInsertLoop_ok (fits : FitsOracle) : ∀ (fuel : Nat) (s : HashIdx) (h : Nat)
    (hd : Handle) (s' : HashIdx), HashWF s → h < 2 ^ MAX_BITS →
    hashInsertLoop fits fuel s h hd = .ok s' →
    HashWF s' ∧ hd ∈ hashLookup s' h ∧
      ∀ h2 hd2, h2 < 2 ^ MAX_BITS → hd2 ∈ hashLookup s h2 → hd2 ∈ hashLookup s' h2 := by
  intro fuel
  induction fuel with
  | zero =>
    intro s h hd s' _ _ heq
    exact absurd heq (by simp [hashInsertLoop])
  | succ fuel ih =>
    intro s h hd s' hwf hh heq
    simp only [hashInsertLoop] at heq
    split at heq
    · exact absurd heq (by simp)
    · rename_i B hB
      split at heq
      · exact absurd heq (by simp)
      · rename_i hbits
        split at heq
        · rename_i B' hadd
          simp only [Except.ok.injEq] at heq
          subst heq
          obtain ⟨hwf', hmem, hmono⟩ := hashInsert_addok fits s h hd B B' hwf hh hB hadd
            { s with buckets := fun b => if b = s.bat (hashSlotOf s h) then some B' else s.buckets b }
            (fun b => rfl) rfl rfl rfl
          exact ⟨hwf', hmem, fun h2 hd2 _ hm => hmono h2 hd2 hm⟩
        · rename_i e hadd
          split at heq
          · exact absurd heq (by simp)
          · rename_i s2 hsplit
            obtain ⟨hwf2, hlkeq⟩ := hashSplit_ok fits s _ B hwf hB s2 hsplit
            obtain ⟨hwf', hmem, hmono⟩ := ih s2 h hd s' hwf2 hh heq
            refine ⟨hwf', hmem, ?_⟩
            intro h2 hd2 hb2 hm
            apply hmono h2 hd2 hb2
            rw [hlkeq h2 hb2]
            exact hm

theorem hashRun_aux (fits : FitsOracle) (fuel : Nat) :
    ∀ (ops : List (Nat × Handle)) (s0 : HashIdx), HashWF s0 →
      (∀ op ∈ ops, op.1 < 2 ^ MAX_BITS) → ∀ s',
      ops.foldlM (fun s op => hashInsertLoop fits fuel s op.1 op.2) s0 = .ok s' →
      HashWF s' ∧
        (∀ h2 hd2, h2 < 2 ^ MAX_BITS → hd2 ∈ hashLookup s0 h2 → hd2 ∈ hashLookup s' h2) ∧
        ∀ op ∈ ops, op.2 ∈ hashLookup s' op.1 := by
  intro ops
  induction ops with
  | nil =>
    intro s0 hwf _ s' heq
    simp only [List.foldlM_nil] at heq
    have heq2 : (Except.ok s0 : Except PyErr HashIdx) = .ok s' := heq
    simp only [Except.ok.injEq] at heq2
    subst heq2
    exact ⟨hwf, fun _ _ _ hm => hm, by simp⟩
  | cons op t ih =>
    intro s0 hwf hb s' heq
    rw [List.foldlM_cons] at heq
    cases hloop : hashInsertLoop fits fuel s0 op.1 op.2 with
    | error e =>
      rw [hloop] at heq
      have hred : ∀ (k : HashIdx → Except PyErr HashIdx),
          ((Except.error e : Except PyErr HashIdx) >>= k) = .error e := fun _ => rfl
      rw [hred] at heq
      exact absurd heq (by simp)
    | ok s1 =>
      rw [hloop] at heq
      have hred : ∀ (k : HashIdx → Except PyErr HashIdx),
          ((Except.ok s1 : Except PyErr HashIdx) >>= k) = k s1 := fun _ => rfl
      rw [hred] at heq
      obtain ⟨hwf1, hmem1, hmono1⟩ := hashInsertLoop_ok fits fuel s0 op.1 op.2 s1 hwf
        (hb op (by simp)) hloop
      obtain ⟨hwf', hmono2, hall⟩ := ih s1 hwf1 (fun o ho => hb o (by simp [ho])) s' heq
      refine ⟨hwf', ?_, ?_⟩
      · intro h2 hd2 hb2 hm
        exact hmono2 h2 hd2 hb2 (hmono1 h2 hd2 hb2 hm)
      · intro o ho
        rcases List.mem_cons.mp ho with ho1 | ho1
        · subst ho1
          exact hmono2 o.1 o.2 (hb o (by simp)) hmem1
        · exact hall o ho1

/-- Claim C3: after any sequence of `insert` operations on a freshly created
index (16-bit hashes, any room oracle, any retry fuel), if the run completes
then the resulting state satisfies the claim's invariant: every live
bucket-address-table slot points to an existing bucket whose stored
`(hash_prefix, bits_used)` matches the slot index truncated to its
`bits_used` high bits (the `HashWF.slot` field, alongside the companion
structural invariants the code maintains), and every inserted key is
retrievable through `bucket_table[h >> (MAX_BITS - bucket_table_bits)]`.
The proof threads the invariant through every `_split`, covering both the
bucket-address-table repointing case and the doubling case. -/
theorem C3_hash_invariant (fits : FitsOracle) (fuel : Nat) (ops : List (Nat × Handle))
    (s' : HashIdx) (hbound : ∀ op ∈ ops, op.1 < 2 ^ MAX_BITS)
    (hrun : hashRun fits fuel ops = .ok s') :
    HashWF s' ∧ ∀ op ∈ ops, op.2 ∈ hashLookup s' op.1 := by
  obtain ⟨hwf, _, hall⟩ := hashRun_aux fits fuel ops hashCreateState hashWF_init hbound s' hrun
  exact ⟨hwf, hall⟩

/-- Concrete instantiation of `C3_hash_invariant`: inserting hashes 0 and
32768 under the tight room oracle (which forces a table-doubling split)
yields a well-formed index in which both keys are retrievable. -/
theorem C3_hash_invariant_witness :
    HashWF demoHashS ∧
      ∀ op ∈ ([(0, (1, 1)), (32768, (1, 2))] : List (Nat × Handle)),
        op.2 ∈ hashLookup demoHashS op.1 :=
  C3_hash_invariant tightFits 5 ([(0, (1, 1)), (32768, (1, 2))] : List (Nat × Handle))
    demoHashS (by decide) (by rfl)
